import Mathlib

/-!
Verification development for the LexBrain knowledge-persistence service.

The definitions below are a shallow embedding of the TypeScript sources:

* packages/server/src/crypto.ts      — sha256, factId (content hashing)
* packages/server/src/db.ts          — DbManager (facts, locks, frames, recall)
* packages/server/src/server.ts      — the put/get endpoints and validation
* packages/codemap-indexer/src/neighborhood.ts — extractNeighborhood

Modelling conventions:

* JavaScript values that can appear as JSON payloads are modelled by the
  mutual inductive type JsValue / JsArr / JsObj.
* JSON.stringify with an array replacer, as invoked by sha256 in crypto.ts,
  is modelled by jsonStringifyReplacer; JSON.stringify without a replacer
  by jsonStringify.  Object key order in the model is insertion order, as
  in JavaScript.
* SHA-256 is implemented in full over Nat byte lists, with the round and
  initialisation constants derived from integer cube and square roots of
  the first primes, per the FIPS 180-4 description.
* Timestamps of fact rows are modelled as integer seconds; the SQLite
  datetime comparison used by the TTL cleanup is exact at second
  granularity, so integer comparison is a faithful model.  Frame
  timestamps are kept as strings and compared lexicographically, matching
  the TEXT comparison done by ORDER BY timestamp in SQLite for ISO dates.
* JavaScript truthiness tests that the source performs on strings,
  numbers and option-like values are modelled explicitly; see jsTruthy,
  strTruthy and intTruthy below.
-/

set_option maxRecDepth 100000
set_option maxHeartbeats 4000000

namespace LexBrain

/-! ## SHA-256 over byte lists -/

/-- Reduce a natural number to 32 bits. -/
def w32 (n : Nat) : Nat := n % 4294967296

/-- Right rotation of a 32-bit word. -/
def rotr (k n : Nat) : Nat := w32 ((n >>> k) ||| (n <<< (32 - k)))

/-- Logical right shift. -/
def shr (k n : Nat) : Nat := n >>> k

/-- Bitwise complement within 32 bits. -/
def not32 (n : Nat) : Nat := Nat.xor n 4294967295

/-- Binary search for the integer e-th root: the invariant is that the
result r satisfies r ^ e ≤ x, and the search interval is (lo, hi). -/
def rootSearch (e x : Nat) : Nat → Nat → Nat → Nat
  | 0, lo, _ => lo
  | fuel+1, lo, hi =>
    let mid := (lo + hi) / 2
    if mid = lo then lo
    else if mid ^ e ≤ x then rootSearch e x fuel mid hi
    else rootSearch e x fuel lo mid

/-- Integer e-th root; 256 halving steps are ample for the inputs used
by the SHA-256 constant derivation. -/
def introot (e x : Nat) : Nat := rootSearch e x 256 0 (x + 1)

/-- The first 64 primes, used to derive the SHA-256 constants. -/
def sha256Primes : List Nat :=
  [2, 3, 5, 7, 11, 13, 17, 19, 23, 29, 31, 37, 41, 43, 47, 53,
   59, 61, 67, 71, 73, 79, 83, 89, 97, 101, 103, 107, 109, 113, 127, 131,
   137, 139, 149, 151, 157, 163, 167, 173, 179, 181, 191, 193, 197, 199, 211, 223,
   227, 229, 233, 239, 241, 251, 257, 263, 269, 271, 277, 281, 283, 293, 307, 311]

/-- The 64 round constants: the first 32 bits of the fractional parts of
the cube roots of the first 64 primes. -/
def sha256K : List Nat := sha256Primes.map (fun p => w32 (introot 3 (p * 2 ^ 96)))

/-- Initial hash value: the first 32 bits of the fractional parts of the
square roots of the first 8 primes. -/
def sha256H0 : List Nat := (sha256Primes.take 8).map (fun p => w32 (introot 2 (p * 2 ^ 64)))

def bsig0 (x : Nat) : Nat := Nat.xor (rotr 2 x) (Nat.xor (rotr 13 x) (rotr 22 x))

def bsig1 (x : Nat) : Nat := Nat.xor (rotr 6 x) (Nat.xor (rotr 11 x) (rotr 25 x))

def ssig0 (x : Nat) : Nat := Nat.xor (rotr 7 x) (Nat.xor (rotr 18 x) (shr 3 x))

def ssig1 (x : Nat) : Nat := Nat.xor (rotr 17 x) (Nat.xor (rotr 19 x) (shr 10 x))

def ch (x y z : Nat) : Nat := Nat.xor (x &&& y) (not32 x &&& z)

def maj (x y z : Nat) : Nat := Nat.xor (x &&& y) (Nat.xor (x &&& z) (y &&& z))

/-- The 64-bit big-endian encoding of the message bit length. -/
def be64 (n : Nat) : List Nat :=
  [(n >>> 56) % 256, (n >>> 48) % 256, (n >>> 40) % 256, (n >>> 32) % 256,
   (n >>> 24) % 256, (n >>> 16) % 256, (n >>> 8) % 256, n % 256]

/-- SHA-256 padding: a 1 bit, zeros to 56 mod 64 bytes, then the bit length. -/
def padMessage (msg : List Nat) : List Nat :=
  let L := msg.length
  msg ++ [128] ++ List.replicate ((120 - (L + 1) % 64) % 64) 0 ++ be64 (8 * L)

def toBlocksAux : Nat → List Nat → List (List Nat)
  | 0, _ => []
  | _, [] => []
  | fuel+1, l => l.take 64 :: toBlocksAux fuel (l.drop 64)

/-- Split a byte list into 64-byte blocks. -/
def toBlocks (l : List Nat) : List (List Nat) := toBlocksAux l.length l

/-- Read the i-th big-endian 32-bit word of a block. -/
def wordAt (b : List Nat) (i : Nat) : Nat :=
  b.getD (4 * i) 0 * 16777216 + b.getD (4 * i + 1) 0 * 65536 +
    b.getD (4 * i + 2) 0 * 256 + b.getD (4 * i + 3) 0

/-- The next word of the message schedule, from the last 16 words. -/
def nextW (w : List Nat) : Nat :=
  w32 (ssig1 (w.getD (w.length - 2) 0) + w.getD (w.length - 7) 0 +
       ssig0 (w.getD (w.length - 15) 0) + w.getD (w.length - 16) 0)

def scheduleAux (w : List Nat) : Nat → List Nat
  | 0 => w
  | t+1 => let w' := scheduleAux w t
           w' ++ [nextW w']

/-- The 64-word message schedule of one block. -/
def schedule (block : List Nat) : List Nat :=
  scheduleAux ((List.range 16).map (wordAt block)) 48

/-- One compression round on the working variables [a,b,c,d,e,f,g,h]. -/
def round8 (v : List Nat) (k w : Nat) : List Nat :=
  match v with
  | [a, b, c, d, e, f, g, h] =>
    let t1 := w32 (h + bsig1 e + ch e f g + k + w)
    let t2 := w32 (bsig0 a + maj a b c)
    [w32 (t1 + t2), a, b, c, w32 (d + t1), e, f, g]
  | _ => v

/-- Compress one 64-byte block into the running hash state. -/
def processBlock (H : List Nat) (block : List Nat) : List Nat :=
  let v := (sha256K.zip (schedule block)).foldl (fun v kw => round8 v kw.1 kw.2) H
  (H.zip v).map (fun p => w32 (p.1 + p.2))

/-- The SHA-256 digest of a byte list, as eight 32-bit words. -/
def sha256Digest (msg : List Nat) : List Nat :=
  (toBlocks (padMessage msg)).foldl processBlock sha256H0

/-- The lowercase hexadecimal digit for a value below 16: digits 0-9 are
code points 48-57 and letters a-f are code points 97-102. -/
def hexDigitChar (n : Nat) : Char :=
  if n < 10 then Char.ofNat (48 + n) else Char.ofNat (87 + n)

/-- Lowercase hexadecimal rendering of a 32-bit word, 8 digits. -/
def toHex8 (n : Nat) : String :=
  String.mk ((List.range 8).map (fun i => hexDigitChar ((n >>> (4 * (7 - i))) % 16)))

def hexOfWords (l : List Nat) : String := String.join (l.map toHex8)

/-- UTF-8 encoding of one character. -/
def utf8Char (c : Char) : List Nat :=
  let n := c.toNat
  if n < 128 then [n]
  else if n < 2048 then [192 + n / 64, 128 + n % 64]
  else if n < 65536 then [224 + n / 4096, 128 + (n / 64) % 64, 128 + n % 64]
  else [240 + n / 262144, 128 + (n / 4096) % 64, 128 + (n / 64) % 64, 128 + n % 64]

/-- UTF-8 encoding of a string, as used by createHash(...).update(s, utf8). -/
def utf8Bytes (s : String) : List Nat := (s.toList.map utf8Char).flatten

/-- Hex digest of the SHA-256 hash of the UTF-8 encoding of a string. -/
def sha256HexOfString (s : String) : String := hexOfWords (sha256Digest (utf8Bytes s))

/-! ## JavaScript / JSON value model -/

mutual

/-- A JavaScript value that can appear as a JSON payload.  Object fields
are kept in insertion order, as JavaScript does. -/
inductive JsValue where
  | null
  | bool (b : Bool)
  | num (n : Int)
  | str (s : String)
  | arr (elems : JsArr)
  | obj (fields : JsObj)

/-- A JavaScript array of JSON values. -/
inductive JsArr where
  | nil
  | cons (hd : JsValue) (tl : JsArr)

/-- The field list of a JavaScript object, in insertion order. -/
inductive JsObj where
  | nil
  | cons (key : String) (val : JsValue) (tl : JsObj)

end

def JsArr.length : JsArr → Nat
  | .nil => 0
  | .cons _ tl => 1 + length tl

/-- Own property names of an object, in insertion order (Object.keys). -/
def JsObj.keys : JsObj → List String
  | .nil => []
  | .cons k _ tl => k :: keys tl

/-- Property access on an object: the value of the first field named k. -/
def JsObj.lookup : JsObj → String → Option JsValue
  | .nil, _ => none
  | .cons k v tl, k' => if k = k' then some v else lookup tl k'

/-- Single-motive structural induction over object field lists, with no
hypothesis about the stored values; built from the mutual recursor. -/
def JsObj.recShallow {P : JsObj → Prop} (h0 : P .nil)
    (h1 : ∀ k v tl, P tl → P (.cons k v tl)) : ∀ kvs, P kvs :=
  @JsObj.rec (fun _ => True) (fun _ => True) P
    trivial (fun _ => trivial) (fun _ => trivial) (fun _ => trivial)
    (fun _ _ => trivial) (fun _ _ => trivial)
    trivial (fun _ _ _ _ => trivial)
    h0 (fun k v tl _ ih => h1 k v tl ih)

/-- JavaScript truthiness of a value: null, false, 0 and the empty string
are falsy; arrays and objects are always truthy. -/
def jsTruthy : JsValue → Bool
  | .null => false
  | .bool b => b
  | .num n => n != 0
  | .str s => s != ""
  | .arr _ => true
  | .obj _ => true

/-! ## JSON.stringify -/

/-- One character of a JSON quoted string (the QuoteJSONString escapes). -/
def escapeChar (c : Char) : String :=
  if c = '"' then "\\\""
  else if c = '\\' then "\\\\"
  else if c = '\n' then "\\n"
  else if c = '\r' then "\\r"
  else if c = '\t' then "\\t"
  else if c.toNat = 8 then "\\b"
  else if c.toNat = 12 then "\\f"
  else if c.toNat < 32 then
    "\\u00" ++ String.mk [hexDigitChar (c.toNat / 16), hexDigitChar (c.toNat % 16)]
  else String.singleton c

/-- JSON quoting of a string literal. -/
def quoteString (s : String) : String :=
  "\"" ++ String.join (s.toList.map escapeChar) ++ "\""

/-- Comma-separated concatenation. -/
def joinComma : List String → String
  | [] => ""
  | [s] => s
  | s :: rest => s ++ "," ++ joinComma rest

/-- First match in a list of already-serialized fields. -/
def lookupField : List (String × String) → String → Option String
  | [], _ => none
  | (k, s) :: tl, k' => if k = k' then some s else lookupField tl k'

/-- Assemble the members of a serialized object in replacer-list order:
for each property name of the replacer list K, in order, emit the field
if the object has it.  This is SerializeJSONObject with a PropertyList. -/
def assembleFields (K : List String) (fields : List (String × String)) : List String :=
  K.filterMap (fun k => (lookupField fields k).map (fun s => quoteString k ++ ":" ++ s))

mutual

/-- JSON.stringify(v, K) where K is an array replacer: at every nesting
depth, object members are filtered to the property names in K and emitted
in the order of K; arrays are serialized in full regardless of K. -/
def jsonStringifyReplacer (K : List String) : JsValue → String
  | .null => "null"
  | .bool b => if b then "true" else "false"
  | .num n => toString n
  | .str s => quoteString s
  | .arr xs => "[" ++ joinComma (serializeElems K xs) ++ "]"
  | .obj kvs => "\x7b" ++ joinComma (assembleFields K (serializeFields K kvs)) ++ "\x7d"

def serializeElems (K : List String) : JsArr → List String
  | .nil => []
  | .cons x tl => jsonStringifyReplacer K x :: serializeElems K tl

def serializeFields (K : List String) : JsObj → List (String × String)
  | .nil => []
  | .cons k v tl => (k, jsonStringifyReplacer K v) :: serializeFields K tl

end

mutual

/-- JSON.stringify(v) without a replacer: object members are emitted in
insertion order. -/
def jsonStringify : JsValue → String
  | .null => "null"
  | .bool b => if b then "true" else "false"
  | .num n => toString n
  | .str s => quoteString s
  | .arr xs => "[" ++ joinComma (plainElems xs) ++ "]"
  | .obj kvs => "\x7b" ++ joinComma (plainFields kvs) ++ "\x7d"

def plainElems : JsArr → List String
  | .nil => []
  | .cons x tl => jsonStringify x :: plainElems tl

def plainFields : JsObj → List String
  | .nil => []
  | .cons k v tl => (quoteString k ++ ":" ++ jsonStringify v) :: plainFields tl

end

/-! ## sha256 and factId from crypto.ts -/

/-- Length of a string in UTF-16 code units, as JavaScript measures it. -/
def utf16Len (s : String) : Nat :=
  (s.toList.map (fun c => if c.toNat ≥ 65536 then 2 else 1)).sum

/-- Index property names 0..n-1 as strings. -/
def indexKeys (n : Nat) : List String := (List.range n).map toString

/-- Object.keys of a JavaScript value: own enumerable property names.
Strings and arrays expose index keys; primitives expose none; null makes
Object.keys throw a TypeError, modelled as none. -/
def objectKeys : JsValue → Option (List String)
  | .null => none
  | .bool _ => some []
  | .num _ => some []
  | .str s => some (indexKeys (utf16Len s))
  | .arr xs => some (indexKeys xs.length)
  | .obj kvs => some kvs.keys

/-- Lexicographic comparison of character lists by code point, the
comparison JavaScript Array.prototype.sort applies to strings and the
BINARY collation SQLite applies to TEXT columns. -/
def charListLe : List Char → List Char → Bool
  | [], _ => true
  | _ :: _, [] => false
  | a :: as, b :: bs =>
    if a.toNat < b.toNat then true
    else if b.toNat < a.toNat then false
    else charListLe as bs

/-- Code-point comparison of strings. -/
def strLe (a b : String) : Bool := charListLe a.toList b.toList

/-- The same comparison as a relation, for use with insertionSort. -/
def strLeRel (a b : String) : Prop := strLe a b = true

instance : DecidableRel strLeRel := fun a b => inferInstanceAs (Decidable (_ = true))

/-- Sort a list of property names, as Object.keys(obj).sort() does. -/
def sortStrings (l : List String) : List String :=
  l.insertionSort strLeRel

/-- Model of sha256 from crypto.ts: stable JSON stringify with the sorted
top-level key list as array replacer, then SHA-256 of the UTF-8 bytes.
Returns none when Object.keys throws (obj is null). -/
def sha256 (v : JsValue) : Option String :=
  (objectKeys v).map (fun ks => sha256HexOfString (jsonStringifyReplacer (sortStrings ks) v))

/-- Scope of a fact, from types.ts. -/
structure Scope where
  repo : String
  commit : String
  path : Option String := none
  symbol : Option String := none
deriving DecidableEq, Repr

/-- The components object built by factId in crypto.ts, with fields in
source insertion order: kind, scope, inputs_hash, payload_hash.  The
scope object carries its optional fields only when present. -/
def scopeJson (s : Scope) : JsObj :=
  .cons "repo" (.str s.repo) (.cons "commit" (.str s.commit)
    (match s.path, s.symbol with
     | none, none => .nil
     | some p, none => .cons "path" (.str p) .nil
     | none, some y => .cons "symbol" (.str y) .nil
     | some p, some y => .cons "path" (.str p) (.cons "symbol" (.str y) .nil)))

def factIdJson (kind : String) (scope : Scope) (ih ph : String) : JsValue :=
  .obj (.cons "kind" (.str kind) (.cons "scope" (.obj (scopeJson scope))
    (.cons "inputs_hash" (.str ih) (.cons "payload_hash" (.str ph) .nil))))

/-- Model of factId from crypto.ts: sha256 of the components object.  The
argument is an object, never null, so the hash always exists. -/
def factId (kind : String) (scope : Scope) (ih ph : String) : String :=
  (sha256 (factIdJson kind scope ih ph)).getD ""

/-! ## Database model, from db.ts

The SQLite tables are modelled as lists of rows.  INSERT OR IGNORE on a
primary key is an insert conditional on key absence; INSERT OR REPLACE
removes the conflicting row; DELETE returns the number of removed rows
via result.changes. -/

/-- A row of the facts table.  The ts column (an ISO timestamp string) is
modelled as integer seconds, which is faithful to the second-granularity
datetime comparisons SQLite performs on it. -/
structure FactRow where
  fact_id : String
  kind : String
  repo : String
  commit : String
  path : Option String
  symbol : Option String
  inputs_hash : String
  payload : String
  ts : Int
  ttl_seconds : Option Int
  actor : Option String
  refs : Option String
deriving DecidableEq, Repr

/-- A row of the frames table. -/
structure FrameRow where
  id : String
  timestamp : String
  branch : String
  jira : Option String
  module_scope : String
  summary_caption : String
  reference_point : String
  status_snapshot : String
  keywords : Option String
  atlas_frame_id : Option String
deriving DecidableEq, Repr

/-- A row of the atlas_frames table; atlas_json holds the serialized
Atlas Frame blob. -/
structure AtlasRow where
  atlas_frame_id : String
  frame_id : String
  atlas_json : String
deriving DecidableEq, Repr

/-- The mutable database state owned by DbManager. -/
structure DbState where
  facts : List FactRow := []
  locks : List String := []
  frames : List FrameRow := []
  atlas : List AtlasRow := []
deriving DecidableEq, Repr

/-- Does a fact row with this primary key exist. -/
def hasFact (s : DbState) (fid : String) : Bool :=
  s.facts.any (fun r => r.fact_id = fid)

/-- DbManager.insertFact: INSERT OR IGNORE keyed on fact_id; the result
is result.changes > 0, i.e. whether a new row was created. -/
def insertFact (s : DbState) (row : FactRow) : Bool × DbState :=
  if hasFact s row.fact_id then (false, s)
  else (true, { s with facts := s.facts ++ [row] })

/-- The conjunctive filter of DbManager.getFacts: repo, commit and kind
always; path, symbol and inputs_hash only when the query supplies them
(SQL equality never matches a NULL column). -/
structure GetQuery where
  repo : String
  commit : String
  kind : String
  path : Option String := none
  symbol : Option String := none
  inputs_hash : Option String := none
deriving DecidableEq, Repr

def matchesGet (q : GetQuery) (r : FactRow) : Bool :=
  r.repo == q.repo && r.commit == q.commit && r.kind == q.kind &&
  (match q.path with | none => true | some p => r.path == some p) &&
  (match q.symbol with | none => true | some y => r.symbol == some y) &&
  (match q.inputs_hash with | none => true | some h => r.inputs_hash == h)

/-- DbManager.getFacts: a SELECT with the conjunctive filter and no
condition on ts or ttl_seconds. -/
def getFacts (s : DbState) (q : GetQuery) : List FactRow :=
  s.facts.filter (matchesGet q)

/-- DbManager.acquireLock: INSERT OR IGNORE into locks, reporting whether
a row was created. -/
def acquireLock (s : DbState) (name : String) : Bool × DbState :=
  if name ∈ s.locks then (false, s)
  else (true, { s with locks := s.locks ++ [name] })

/-- DbManager.releaseLock: DELETE FROM locks WHERE name = ?, reporting
whether a row was removed. -/
def releaseLock (s : DbState) (name : String) : Bool × DbState :=
  if name ∈ s.locks then (true, { s with locks := s.locks.filter (fun n => n ≠ name) })
  else (false, s)

/-- Is a fact row expired at time now: it has a TTL and its creation time
plus the TTL is strictly before now. -/
def rowExpired (now : Int) (r : FactRow) : Bool :=
  match r.ttl_seconds with
  | none => false
  | some t => r.ts + t < now

/-- DbManager.cleanupExpiredFacts: DELETE every fact whose ts plus
ttl_seconds is before now, returning the number of deleted rows.  The
datetime condition is evaluated against the clock at execution time,
passed here as now. -/
def cleanupExpiredFacts (s : DbState) (now : Int) : Nat × DbState :=
  ((s.facts.filter (rowExpired now)).length,
   { s with facts := s.facts.filter (fun r => ¬ rowExpired now r) })

/-! ## Frame search and recall, from db.ts

The FTS5 MATCH test lives inside SQLite, outside this repository, so the
fuzzy matcher is a parameter fts of the definitions below. -/

/-- JavaScript truthiness of an optional string field. -/
def strTruthy : Option String → Bool
  | none => false
  | some s => s != ""

/-- Arguments of DbManager.searchFrames. -/
structure SearchQuery where
  reference_point : Option String := none
  jira : Option String := none
  branch : Option String := none
  limit : Option Nat := none
deriving DecidableEq, Repr

/-- Descending timestamp order on frame rows, for ORDER BY timestamp
DESC: row a precedes row b when the timestamp of b is at most that of a
in the code-point string order. -/
def tsDescRel (a b : FrameRow) : Prop := strLe b.timestamp a.timestamp = true

instance : DecidableRel tsDescRel := fun a b => inferInstanceAs (Decidable (_ = true))

/-- Sort frame rows by ORDER BY timestamp DESC (lexicographic comparison
of the TEXT column). -/
def sortByTimestampDesc (l : List FrameRow) : List FrameRow :=
  l.insertionSort tsDescRel

/-- The extra equality filters of searchFrames, applied only when the
field is truthy. -/
def extraFilters (q : SearchQuery) (r : FrameRow) : Bool :=
  (match q.jira with | some j => if j ≠ "" then r.jira == some j else true | none => true) &&
  (match q.branch with | some b => if b ≠ "" then r.branch == b else true | none => true)

/-- DbManager.searchFrames: with a truthy reference_point the FTS join
filters by the fuzzy matcher and then by the truthy extra filters;
otherwise equality filters on jira and branch apply.  Rows are ordered by
timestamp descending and a truthy limit truncates the result. -/
def searchFrames (fts : String → FrameRow → Bool) (s : DbState) (q : SearchQuery) :
    List FrameRow :=
  let base :=
    if strTruthy q.reference_point then
      (s.frames.filter (fts (q.reference_point.getD ""))).filter (extraFilters q)
    else
      s.frames.filter (extraFilters q)
  let sorted := sortByTimestampDesc base
  match q.limit with
  | some n => if n ≠ 0 then sorted.take n else sorted
  | none => sorted

/-- DbManager.getFrameById: SELECT FROM frames WHERE id = ? on the
primary key. -/
def getFrameById (s : DbState) (fid : String) : Option FrameRow :=
  s.frames.find? (fun r => r.id = fid)

/-- DbManager.getAtlasFrameById: SELECT FROM atlas_frames WHERE
atlas_frame_id = ?. -/
def getAtlasFrameById (s : DbState) (aid : String) : Option AtlasRow :=
  s.atlas.find? (fun r => r.atlas_frame_id = aid)

/-- Arguments of DbManager.recallFrame. -/
structure RecallQuery where
  reference_point : Option String := none
  jira : Option String := none
  frame_id : Option String := none
deriving DecidableEq, Repr

/-- The Atlas Frame attached to a recalled frame: fetched only when the
frame carries a truthy atlas_frame_id; a dangling reference yields none
without failing the recall. -/
def atlasFor (s : DbState) (f : FrameRow) : Option AtlasRow :=
  match f.atlas_frame_id with
  | some aid => if aid ≠ "" then getAtlasFrameById s aid else none
  | none => none

/-- DbManager.recallFrame: resolution priority frame_id, then
reference_point (fuzzy, via searchFrames with limit 1), then jira (exact,
via searchFrames with limit 1).  Each field participates only when
truthy. -/
def recallFrame (fts : String → FrameRow → Bool) (s : DbState) (q : RecallQuery) :
    Option (FrameRow × Option AtlasRow) :=
  let frame :=
    if strTruthy q.frame_id then getFrameById s (q.frame_id.getD "")
    else if strTruthy q.reference_point then
      (searchFrames fts s { reference_point := q.reference_point, limit := some 1 }).head?
    else if strTruthy q.jira then
      (searchFrames fts s { jira := q.jira, limit := some 1 }).head?
    else none
  frame.map (fun f => (f, atlasFor s f))

/-! ## The put endpoint, from server.ts -/

/-- Server configuration derived from the environment. -/
structure Config where
  maxPayloadKb : Int
  ttlDays : Int
  zkMode : Bool
deriving DecidableEq, Repr

/-- The TTL ceiling: config.ttlDays * 24 * 3600 seconds. -/
def maxTtl (c : Config) : Int := c.ttlDays * 24 * 3600

/-- A parsed put request body (PutRequest of types.ts). -/
structure PutRequest where
  kind : String
  scope : Scope
  inputs_hash : String
  payload : JsValue
  confidence : Option Int := none
  ttl_seconds : Option Int := none
  actor : Option JsValue := none
  refs : Option (List String) := none

/-- JavaScript truthiness of the optional numeric ttl_seconds field:
absent and zero are both falsy. -/
def intTruthy : Option Int → Bool
  | none => false
  | some n => n != 0

/-- validatePayloadSize of server.ts: a string payload is measured
directly, any other payload is measured after JSON.stringify; the UTF-8
byte length divided by 1024 must not exceed the configured ceiling. -/
def validatePayloadSize (c : Config) (payload : JsValue) : Bool :=
  let payloadStr := match payload with
    | .str s => s
    | v => jsonStringify v
  (utf8Bytes payloadStr).length ≤ 1024 * c.maxPayloadKb

/-- The TTL guard of the put handler: rejection happens only when
ttl_seconds is truthy and out of the interval 60..maxTtl. -/
def ttlRejected (c : Config) (ttl : Option Int) : Bool :=
  intTruthy ttl && (ttl.getD 0 < 60 || ttl.getD 0 > maxTtl c)

/-- Outcome of a put request, as observed by the HTTP client. -/
inductive PutOutcome where
  | ok (fact_id : String) (inserted : Bool)
  | errPayloadTooLarge
  | errInvalidTtl
  | errZkShape
  | errInternal
deriving DecidableEq, Repr

/-- The storage string and payload hash computed by the mode branch of
the put handler: in ZK mode the payload must be an object with truthy
ciphertext and iv fields, storage is the stringified object and the hash
is taken over the ciphertext value alone; in local mode storage and hash
both come from the whole payload.  sha256 of a null payload throws,
surfacing as an internal error. -/
def preparePayload (c : Config) (payload : JsValue) : Except PutOutcome (String × String) :=
  if c.zkMode then
    match payload with
    | .obj kvs =>
      match kvs.lookup "ciphertext", kvs.lookup "iv" with
      | some ct, some iv =>
        if jsTruthy ct && jsTruthy iv then
          match sha256 ct with
          | some h => .ok (jsonStringify (.obj kvs), h)
          | none => .error .errInternal
        else .error .errZkShape
      | _, _ => .error .errZkShape
    | _ => .error .errZkShape
  else
    match sha256 payload with
    | some h => .ok (jsonStringify payload, h)
    | none => .error .errInternal

/-- The row the put handler stores: JavaScript falsy optional fields
(empty path or symbol, zero TTL, falsy actor) are stored as NULL. -/
def rowOfPut (r : PutRequest) (fid : String) (payloadJson : String) (ts : Int) : FactRow :=
  { fact_id := fid
    kind := r.kind
    repo := r.scope.repo
    commit := r.scope.commit
    path := match r.scope.path with | some p => if p ≠ "" then some p else none | none => none
    symbol := match r.scope.symbol with | some y => if y ≠ "" then some y else none | none => none
    inputs_hash := r.inputs_hash
    payload := payloadJson
    ts := ts
    ttl_seconds := match r.ttl_seconds with | some t => if t ≠ 0 then some t else none | none => none
    actor := r.actor.bind (fun a => if jsTruthy a then some (jsonStringify a) else none)
    refs := r.refs.map (fun l => "[" ++ joinComma (l.map quoteString) ++ "]") }

/-- The POST /put handler of server.ts: payload size check, TTL bounds
check, mode-dependent payload preparation, fact id computation and an
idempotent insert. -/
def put (c : Config) (s : DbState) (r : PutRequest) (ts : Int) : PutOutcome × DbState :=
  if ¬ validatePayloadSize c r.payload then (.errPayloadTooLarge, s)
  else if ttlRejected c r.ttl_seconds then (.errInvalidTtl, s)
  else
    match preparePayload c r.payload with
    | .error e => (e, s)
    | .ok (payloadJson, payloadHash) =>
      let fid := factId r.kind r.scope r.inputs_hash payloadHash
      let (inserted, s') := insertFact s (rowOfPut r fid payloadJson ts)
      (.ok fid inserted, s')

/-! ## Neighborhood extraction, from codemap-indexer/src/neighborhood.ts -/

/-- Module metadata from a LexMap policy file (codemap-indexer types.ts).
Optional metadata arrays distinguish absent from present-and-empty. -/
structure ModuleMetadata where
  coords : Int × Int
  description : Option String := none
  owns_paths : Option (List String) := none
  allowed_callers : Option (List String) := none
  forbidden_callers : Option (List String) := none
  feature_flags : Option (List String) := none
  requires_permissions : Option (List String) := none
  kill_patterns : Option (List String) := none
deriving DecidableEq, Repr

/-- The modules record of a policy file: module id to metadata. -/
def Policy := List (String × ModuleMetadata)

/-- An adjacency graph: module id to the list of its neighbors. -/
def AdjacencyGraph := List (String × List String)

/-- Record lookup by key, modelling bracket access on a plain object. -/
def lookupRecord {α : Type} : List (String × α) → String → Option α
  | [], _ => none
  | (k, v) :: tl, k' => if k = k' then some v else lookupRecord tl k'

/-- Is a module id present in the policy (metadata objects are truthy,
so the bracket-access truthiness test is presence). -/
def policyHas (p : Policy) (m : String) : Bool :=
  (lookupRecord p m).isSome

/-- Neighbors of a module in the adjacency graph; a module without an
entry has none. -/
def neighborsOf (g : AdjacencyGraph) (m : String) : List String :=
  (lookupRecord g m).getD []

/-- A module with its full policy metadata, each optional metadata array
defaulted to empty (buildModuleData). -/
structure ModuleData where
  id : String
  coords : Int × Int
  allowed_callers : List String
  forbidden_callers : List String
  feature_flags : List String
  requires_permissions : List String
  kill_patterns : List String
deriving DecidableEq, Repr

def buildModuleData (id : String) (md : ModuleMetadata) : ModuleData :=
  { id := id
    coords := md.coords
    allowed_callers := md.allowed_callers.getD []
    forbidden_callers := md.forbidden_callers.getD []
    feature_flags := md.feature_flags.getD []
    requires_permissions := md.requires_permissions.getD []
    kill_patterns := md.kill_patterns.getD [] }

/-- The extraction result (NeighborhoodData). -/
structure NeighborhoodData where
  seed_modules : List String
  fold_radius : Int
  modules : List ModuleData
deriving DecidableEq, Repr

/-- Adding one neighbor during expansion: a neighbor joins the pair of
(neighborhood, next level) only when it is not yet in the neighborhood
and exists in the policy. -/
def addNbr (p : Policy) (acc : List String × List String) (n : String) :
    List String × List String :=
  if n ∉ acc.1 ∧ policyHas p n = true then (acc.1 ++ [n], acc.2 ++ [n]) else acc

/-- One level of breadth-first expansion: for every module of the current
level, every graph neighbor that is not yet in the neighborhood and that
exists in the policy is appended to both the neighborhood and the next
level.  The pair is (neighborhood, next level). -/
def expandLevel (g : AdjacencyGraph) (p : Policy) (nbh curr : List String) :
    List String × List String :=
  curr.foldl (fun acc m => (neighborsOf g m).foldl (addNbr p) acc) (nbh, [])

/-- The bounded expansion loop: one expandLevel per remaining hop, with
early termination when a level produces no new modules. -/
def bfsLoop (g : AdjacencyGraph) (p : Policy) : Nat → List String → List String → List String
  | 0, nbh, _ => nbh
  | fuel+1, nbh, curr =>
    let step := expandLevel g p nbh curr
    if step.2.isEmpty then step.1
    else bfsLoop g p fuel step.1 step.2

/-- extractNeighborhood of neighborhood.ts: validation of the seed list,
the radius and seed membership in the policy, then breadth-first
expansion for foldRadius levels, and a lexicographically sorted module
list carrying full metadata. -/
def extractNeighborhood (seedModules : List String) (adjacencyGraph : AdjacencyGraph)
    (policy : Policy) (foldRadius : Int) : Except String NeighborhoodData :=
  if seedModules.isEmpty then .error "seedModules cannot be empty"
  else if foldRadius < 0 then .error "foldRadius must be non-negative"
  else
    match seedModules.find? (fun m => ¬ policyHas policy m) with
    | some m => .error ("Seed module \"" ++ m ++ "\" not found in policy")
    | none =>
      let nbh := bfsLoop adjacencyGraph policy foldRadius.toNat
        seedModules.dedup seedModules.dedup
      .ok { seed_modules := seedModules
            fold_radius := foldRadius
            modules := (sortStrings nbh).filterMap (fun m =>
              (lookupRecord policy m).map (buildModuleData m)) }

/-! ## Specification-side relations -/

/-- Reachability within k hops from a start set, where every traversed
module beyond the start set must be a policy member: the specification
reading of bounded neighborhood expansion. -/
inductive ReachWithin (g : AdjacencyGraph) (p : Policy) (start : List String) :
    Nat → String → Prop where
  | seed {k m} : m ∈ start → ReachWithin g p start k m
  | step {k m n} : ReachWithin g p start k m → n ∈ neighborsOf g m →
      policyHas p n = true → ReachWithin g p start (k + 1) n

mutual

/-- Structural equality of JavaScript values up to reordering of object
keys, at any nesting depth.  Object key lists are required to be
duplicate-free, as JavaScript object property names are. -/
inductive KeyPerm : JsValue → JsValue → Prop where
  | null : KeyPerm .null .null
  | bool (b : Bool) : KeyPerm (.bool b) (.bool b)
  | num (n : Int) : KeyPerm (.num n) (.num n)
  | str (s : String) : KeyPerm (.str s) (.str s)
  | arr {xs ys : JsArr} : KeyPermArr xs ys → KeyPerm (.arr xs) (.arr ys)
  | obj {kvs1 kvs2 : JsObj} :
      kvs1.keys.Nodup → kvs2.keys.Nodup → kvs1.keys.Perm kvs2.keys →
      (∀ k v1 v2, kvs1.lookup k = some v1 → kvs2.lookup k = some v2 → KeyPerm v1 v2) →
      KeyPerm (.obj kvs1) (.obj kvs2)

/-- Pointwise lifting of KeyPerm to arrays. -/
inductive KeyPermArr : JsArr → JsArr → Prop where
  | nil : KeyPermArr .nil .nil
  | cons {x y : JsValue} {xs ys : JsArr} :
      KeyPerm x y → KeyPermArr xs ys → KeyPermArr (.cons x xs) (.cons y ys)

end

/-! ## Concrete fixtures used by witnesses and counterexamples -/

/-- Default server configuration: 256 KB payload ceiling, 7 day TTL
ceiling, local mode. -/
def cLocal : Config := { maxPayloadKb := 256, ttlDays := 7, zkMode := false }

/-- The same configuration in ZK mode. -/
def cZk : Config := { maxPayloadKb := 256, ttlDays := 7, zkMode := true }

def scopeW : Scope := { repo := "r", commit := "c" }

/-- A plain note put request. -/
def rNote : PutRequest :=
  { kind := "note", scope := scopeW, inputs_hash := "ih", payload := .str "x" }

/-- A put request with ttl_seconds = 0, which is outside the interval
60..maxTtl. -/
def rTtlZero : PutRequest :=
  { kind := "note", scope := scopeW, inputs_hash := "ih", payload := .str "x",
    ttl_seconds := some 0 }

/-- A ZK-mode payload with a given iv. -/
def zkPayload (iv : String) : JsValue :=
  .obj (.cons "ciphertext" (.str "CT") (.cons "iv" (.str iv) .nil))

def rZk (iv : String) : PutRequest :=
  { kind := "note", scope := scopeW, inputs_hash := "ih", payload := zkPayload iv }

def metaA : ModuleMetadata := { coords := (0, 0) }

/-- Linear chain adjacency graph A to B to C to D. -/
def gChain : AdjacencyGraph := [("A", ["B"]), ("B", ["C"]), ("C", ["D"])]

/-- Policy containing exactly the chain modules. -/
def pChain : Policy := [("A", metaA), ("B", metaA), ("C", metaA), ("D", metaA)]

/-- A policy with a single module and no adjacency entries. -/
def pSingle : Policy := [("A", metaA)]

def gSingle : AdjacencyGraph := []

/-- A frame row fixture. -/
def frameW (id ts rp : String) (jira : Option String) : FrameRow :=
  { id := id, timestamp := ts, branch := "main", jira := jira, module_scope := "[]",
    summary_caption := "s", reference_point := rp, status_snapshot := "st",
    keywords := none, atlas_frame_id := none }

/-- An equality-based stand-in for the external FTS5 fuzzy matcher. -/
def ftsEq (q : String) (r : FrameRow) : Bool := r.reference_point == q

/-- An object with two fields, and the same object with its keys in the
opposite order. -/
def objW1 : JsObj := .cons "a" (.num 1) (.cons "b" (.str "x") .nil)

def objW2 : JsObj := .cons "b" (.str "x") (.cons "a" (.num 1) .nil)

/-- The four-step lock scenario acquire, acquire, release, acquire on one
name, returning the four reported results. -/
def lockSeq (s : DbState) (n : String) : Bool × Bool × Bool × Bool :=
  let a1 := acquireLock s n
  let a2 := acquireLock a1.2 n
  let r3 := releaseLock a2.2 n
  let a4 := acquireLock r3.2 n
  (a1.1, a2.1, r3.1, a4.1)

end LexBrain

namespace LexBrain

/-! # Theorems -/

/-! ## Claim C5: lock semantics -/

/-- C5: acquire(name) returns true and makes name held iff name was not
held before, otherwise returns false and changes nothing; release(name)
returns true and removes the holder iff name was held, otherwise returns
false and changes nothing; from an unheld state the sequence acquire,
acquire, release, acquire returns true, false, true, true. -/
theorem lock_semantics :
    (∀ (s : DbState) (n : String),
      ((acquireLock s n).1 = true ↔ n ∉ s.locks) ∧
      ((acquireLock s n).1 = false → (acquireLock s n).2 = s) ∧
      n ∈ (acquireLock s n).2.locks ∧
      (∀ m, m ≠ n → (m ∈ (acquireLock s n).2.locks ↔ m ∈ s.locks)) ∧
      (acquireLock s n).2.facts = s.facts ∧
      ((releaseLock s n).1 = true ↔ n ∈ s.locks) ∧
      ((releaseLock s n).1 = false → (releaseLock s n).2 = s) ∧
      n ∉ (releaseLock s n).2.locks ∧
      (∀ m, m ≠ n → (m ∈ (releaseLock s n).2.locks ↔ m ∈ s.locks))) ∧
    (∀ (s : DbState) (n : String), n ∉ s.locks →
      lockSeq s n = (true, false, true, true)) := by
  constructor
  · intro s n
    refine ⟨?_, ?_, ?_, ?_, ?_, ?_, ?_, ?_, ?_⟩ <;>
      simp only [acquireLock, releaseLock] <;> split <;>
        simp_all [List.mem_filter]
  · intro s n h
    simp [lockSeq, acquireLock, releaseLock, h, List.mem_filter]

/-- Witness for C5 at the empty database state and lock name x. -/
theorem lock_semantics_witness :
    "x" ∉ ({} : DbState).locks ∧ lockSeq {} "x" = (true, false, true, true) :=
  ⟨by simp [DbState.locks], lock_semantics.2 {} "x" (by simp [DbState.locks])⟩

/-! ## Claim C8: expire deletes exactly the overdue facts -/

/-- C8: expire(now) deletes exactly the facts whose created_at plus
ttl_seconds is strictly before now; facts with no TTL are never deleted;
a fact with ttl_seconds 60 created at t is still returned by a matching
get after expire runs at any time up to and including t plus 60, and is
absent from get results after expire at t plus 61. -/
theorem expire_semantics :
    ∀ (s : DbState) (now : Int),
      (∀ r : FactRow, r ∈ (cleanupExpiredFacts s now).2.facts ↔
          r ∈ s.facts ∧ ∀ t, r.ttl_seconds = some t → ¬ (r.ts + t < now)) ∧
      (∀ r ∈ s.facts, r.ttl_seconds = none → r ∈ (cleanupExpiredFacts s now).2.facts) ∧
      (∀ (q : GetQuery) (r : FactRow), r ∈ s.facts → r.ttl_seconds = some 60 →
        matchesGet q r = true →
          (now ≤ r.ts + 60 → r ∈ getFacts (cleanupExpiredFacts s now).2 q) ∧
          r ∉ getFacts (cleanupExpiredFacts s (r.ts + 61)).2 q) := by
  intro s now
  have hmem : ∀ (ν : Int) (r : FactRow), r ∈ (cleanupExpiredFacts s ν).2.facts ↔
      r ∈ s.facts ∧ ∀ t, r.ttl_seconds = some t → ¬ (r.ts + t < ν) := by
    intro ν r
    simp only [cleanupExpiredFacts, List.mem_filter, decide_eq_true_eq]
    constructor
    · rintro ⟨h1, h2⟩
      refine ⟨h1, ?_⟩
      intro t ht
      simp [rowExpired, ht] at h2
      omega
    · rintro ⟨h1, h2⟩
      refine ⟨h1, ?_⟩
      cases hr : r.ttl_seconds with
      | none => simp [rowExpired, hr]
      | some t => simpa [rowExpired, hr] using h2 t hr
  refine ⟨hmem now, ?_, ?_⟩
  · intro r hr hnone
    exact (hmem now r).2 ⟨hr, by simp [hnone]⟩
  · intro q r hr h60 hq
    constructor
    · intro hle
      have : r ∈ (cleanupExpiredFacts s now).2.facts :=
        (hmem now r).2 ⟨hr, by intro t ht; rw [h60] at ht; cases ht; omega⟩
      simpa [getFacts, List.mem_filter, hq] using this
    · intro hin
      have : r ∈ (cleanupExpiredFacts s (r.ts + 61)).2.facts := by
        simp only [getFacts, List.mem_filter] at hin
        exact hin.1
      have h2 := ((hmem (r.ts + 61) r).1 this).2 60 h60
      omega

/-- Witness for C8 at a one-fact state. -/
def factW : FactRow :=
  { fact_id := "f", kind := "note", repo := "r", commit := "c", path := none,
    symbol := none, inputs_hash := "ih", payload := "\"x\"", ts := 1000,
    ttl_seconds := some 60, actor := none, refs := none }

theorem expire_semantics_witness :
    factW ∈ ({ facts := [factW] } : DbState).facts ∧
    factW.ttl_seconds = some 60 ∧
    matchesGet { repo := "r", commit := "c", kind := "note" } factW = true ∧
    (1060 ≤ factW.ts + 60 →
      factW ∈ getFacts (cleanupExpiredFacts { facts := [factW] } 1060).2
        { repo := "r", commit := "c", kind := "note" }) ∧
    factW ∉ getFacts (cleanupExpiredFacts { facts := [factW] } (factW.ts + 61)).2
      { repo := "r", commit := "c", kind := "note" } := by
  have h := (expire_semantics { facts := [factW] } 1060).2.2
    { repo := "r", commit := "c", kind := "note" } factW (by decide) (by decide) (by decide)
  exact ⟨by decide, by decide, by decide, h.1, h.2⟩

/-! ## Claim C9: get applies no TTL condition -/

/-- C9: a stored fact whose TTL has already elapsed is still returned by
a matching get as long as expire has not been run; expiry acts only
through the deletion pass, never through read-time filtering. -/
theorem get_returns_elapsed_facts :
    ∀ (s : DbState) (q : GetQuery) (r : FactRow) (now t : Int),
      r ∈ s.facts → matchesGet q r = true →
      r.ttl_seconds = some t → r.ts + t < now →
      r ∈ getFacts s q := by
  intro s q r now t hr hq _ _
  simp [getFacts, List.mem_filter, hr, hq]

/-- Witness for C9: the fixture fact has TTL 60 elapsed at time 2000 and
is still returned by a matching get. -/
theorem get_returns_elapsed_facts_witness :
    factW ∈ ({ facts := [factW] } : DbState).facts ∧
    matchesGet { repo := "r", commit := "c", kind := "note" } factW = true ∧
    factW.ttl_seconds = some 60 ∧ factW.ts + 60 < 2000 ∧
    factW ∈ getFacts { facts := [factW] } { repo := "r", commit := "c", kind := "note" } :=
  ⟨by decide, by decide, by decide, by decide,
    get_returns_elapsed_facts { facts := [factW] } _ factW 2000 60
      (by decide) (by decide) (by decide) (by decide)⟩

/-! ## Shared lemmas about the put handler -/

/-- The fact id of the row stored by put is the computed fact id. -/
theorem rowOfPut_fact_id (r : PutRequest) (fid pj : String) (ts : Int) :
    (rowOfPut r fid pj ts).fact_id = fid := rfl

/-- preparePayload never fails with an ok outcome: its errors are the ZK
shape error or the internal error. -/
theorem prep_error_cases {c : Config} {p : JsValue} {e : PutOutcome}
    (h : preparePayload c p = .error e) : e = .errZkShape ∨ e = .errInternal := by
  unfold preparePayload at h
  split at h
  · split at h
    · split at h
      · split at h
        · split at h <;> simp_all
        · simp_all
      · simp_all
    · simp_all
  · split at h <;> simp_all

/-- Forward computation of put when both validations pass and the
payload preparation succeeds. -/
theorem put_eq (c : Config) (s : DbState) (r : PutRequest) (ts : Int)
    (h1 : validatePayloadSize c r.payload = true)
    (h2 : ttlRejected c r.ttl_seconds = false)
    {pj ph : String} (h3 : preparePayload c r.payload = .ok (pj, ph)) :
    put c s r ts =
      (.ok (factId r.kind r.scope r.inputs_hash ph)
          (!hasFact s (factId r.kind r.scope r.inputs_hash ph)),
        if hasFact s (factId r.kind r.scope r.inputs_hash ph) then s
        else { s with facts :=
          s.facts ++ [rowOfPut r (factId r.kind r.scope r.inputs_hash ph) pj ts] }) := by
  by_cases h4 : hasFact s (factId r.kind r.scope r.inputs_hash ph) = true <;>
    simp [put, h1, h2, h3, insertFact, rowOfPut_fact_id, h4]

/-- Inversion of a successful put: both validations passed, payload
preparation succeeded, and the outcome and final state are those of the
idempotent insert of the computed fact id. -/
theorem put_ok_inv {c : Config} {s : DbState} {r : PutRequest} {ts : Int}
    {fid : String} {ins : Bool} {s1 : DbState}
    (h : put c s r ts = (.ok fid ins, s1)) :
    validatePayloadSize c r.payload = true ∧ ttlRejected c r.ttl_seconds = false ∧
    ∃ pj ph, preparePayload c r.payload = .ok (pj, ph) ∧
      fid = factId r.kind r.scope r.inputs_hash ph ∧
      ins = !hasFact s fid ∧
      s1 = (if hasFact s fid then s
            else { s with facts := s.facts ++ [rowOfPut r fid pj ts] }) := by
  cases h1 : validatePayloadSize c r.payload with
  | false => simp [put, h1] at h
  | true =>
    cases h2 : ttlRejected c r.ttl_seconds with
    | true => simp [put, h1, h2] at h
    | false =>
      cases h3 : preparePayload c r.payload with
      | error e =>
        simp [put, h1, h2, h3] at h
        rcases prep_error_cases h3 with he | he <;> simp [he] at h
      | ok pr =>
        obtain ⟨pj, ph⟩ := pr
        rw [put_eq c s r ts h1 h2 h3] at h
        simp only [Prod.mk.injEq, PutOutcome.ok.injEq] at h
        obtain ⟨⟨hf, hi⟩, hs⟩ := h
        subst hf
        exact ⟨rfl, rfl, pj, ph, rfl, rfl, hi.symm, hs.symm⟩

/-- After a successful put, a fact with the returned id is present. -/
theorem hasFact_after_put {c : Config} {s : DbState} {r : PutRequest} {ts : Int}
    {fid : String} {ins : Bool} {s1 : DbState}
    (h : put c s r ts = (.ok fid ins, s1)) : hasFact s1 fid = true := by
  obtain ⟨h1, h2, pj, ph, h3, hfid, hins, hs1⟩ := put_ok_inv h
  by_cases h4 : hasFact s fid
  · rw [hs1, if_pos (by rw [hfid] at h4 ⊢; exact h4)]
    exact h4
  · rw [hs1, if_neg (by rw [hfid] at h4 ⊢; exact h4)]
    simp [hasFact, hfid, rowOfPut]

/-! ## Claim C1: put is idempotent -/

/-- C1: a second put of the same request returns the same fact id with
inserted false and leaves the stored state untouched, and the first call
reports inserted true exactly when no fact with that id existed. -/
theorem put_idempotent :
    ∀ (c : Config) (s : DbState) (r : PutRequest) (t1 t2 : Int)
      (fid : String) (ins : Bool) (s1 : DbState),
      put c s r t1 = (.ok fid ins, s1) →
      put c s1 r t2 = (.ok fid false, s1) ∧ ins = !hasFact s fid := by
  intro c s r t1 t2 fid ins s1 h
  obtain ⟨h1, h2, pj, ph, h3, hfid, hins, hs1⟩ := put_ok_inv h
  subst hfid
  have hpresent : hasFact s1 (factId r.kind r.scope r.inputs_hash ph) = true :=
    hasFact_after_put h
  refine ⟨?_, hins⟩
  rw [put_eq c s1 r t2 h1 h2 h3]
  simp [hpresent]

/-- Witness for C1: two identical puts of the note request against the
empty state. -/
theorem put_idempotent_witness :
    ∃ (fid : String) (s1 : DbState),
      put cLocal {} rNote 5 = (.ok fid true, s1) ∧
      put cLocal s1 rNote 6 = (.ok fid false, s1) := by
  obtain ⟨fid, ins, s1, h⟩ :
      ∃ fid ins s1, put cLocal {} rNote 5 = (.ok fid ins, s1) := ⟨_, _, _, rfl⟩
  have hins : ins = true := by
    have := (put_idempotent cLocal {} rNote 5 6 fid ins s1 h).2
    simpa [hasFact, DbState.facts] using this
  rw [hins] at h
  exact ⟨fid, s1, h, (put_idempotent cLocal {} rNote 5 6 fid true s1 h).1⟩

/-! ## Claim C7: TTL validation -/

/-- C7 counterexample: ttl_seconds = 0 lies outside the interval from 60
to maxTtl, yet put accepts the request and inserts a row, because the
guard tests JavaScript truthiness of ttl_seconds first and 0 is falsy. -/
theorem put_ttl_zero_counterexample :
    rTtlZero.ttl_seconds = some 0 ∧ (0 : Int) < 60 ∧
    (put cLocal {} rTtlZero 0).1 ≠ .errInvalidTtl ∧
    (put cLocal {} rTtlZero 0).2.facts.length = 1 := by
  have h : put cLocal {} rTtlZero 0 =
      (.ok (factId rTtlZero.kind rTtlZero.scope rTtlZero.inputs_hash
          ((sha256 rTtlZero.payload).getD ""))
        (!hasFact {} (factId rTtlZero.kind rTtlZero.scope rTtlZero.inputs_hash
          ((sha256 rTtlZero.payload).getD ""))),
        if hasFact {} (factId rTtlZero.kind rTtlZero.scope rTtlZero.inputs_hash
            ((sha256 rTtlZero.payload).getD "")) then {}
        else { ({} : DbState) with facts := ({} : DbState).facts ++
          [rowOfPut rTtlZero (factId rTtlZero.kind rTtlZero.scope rTtlZero.inputs_hash
            ((sha256 rTtlZero.payload).getD "")) (jsonStringify rTtlZero.payload) 0] }) :=
    put_eq cLocal {} rTtlZero 0 (by decide) (by decide) (by rfl)
  have hempty : ∀ fid, hasFact {} fid = false := fun _ => rfl
  refine ⟨rfl, by decide, ?_, ?_⟩ <;> rw [h] <;> simp [hempty, DbState.facts]

/-- C7 amended: a put request that passes the payload size check and
whose ttl_seconds is truthy (nonzero) and outside the interval from 60
to maxTtl is rejected with InvalidTtl without inserting anything; a
ttl_seconds of exactly 0 bypasses the check and is never rejected as an
invalid TTL. -/
theorem put_ttl_validation :
    (∀ (c : Config) (s : DbState) (r : PutRequest) (ts t : Int),
      validatePayloadSize c r.payload = true →
      r.ttl_seconds = some t → t ≠ 0 → (t < 60 ∨ maxTtl c < t) →
      put c s r ts = (.errInvalidTtl, s)) ∧
    (∀ (c : Config) (s : DbState) (r : PutRequest) (ts : Int),
      r.ttl_seconds = some 0 → (put c s r ts).1 ≠ .errInvalidTtl) := by
  constructor
  · intro c s r ts t h1 ht hnz hout
    have h2 : ttlRejected c r.ttl_seconds = true := by
      simp only [ttlRejected, ht, intTruthy, Option.getD]
      rcases hout with h | h <;> simp [hnz, h]
    simp [put, h1, h2]
  · intro c s r ts ht
    have h2 : ttlRejected c r.ttl_seconds = false := by
      simp [ttlRejected, ht, intTruthy]
    cases h1 : validatePayloadSize c r.payload with
    | false => simp [put, h1]
    | true =>
      cases h3 : preparePayload c r.payload with
      | error e =>
        rcases prep_error_cases h3 with he | he <;> subst he <;> simp [put, h1, h2, h3]
      | ok pr =>
        obtain ⟨pj, ph⟩ := pr
        rw [put_eq c s r ts h1 h2 h3]
        simp

/-- Witness for C7 amended: ttl_seconds = 30 is rejected with InvalidTtl
and ttl_seconds = 0 is not. -/
theorem put_ttl_validation_witness :
    put cLocal {} { rNote with ttl_seconds := some 30 } 0 = (.errInvalidTtl, {}) ∧
    (put cLocal {} rTtlZero 0).1 ≠ .errInvalidTtl :=
  ⟨put_ttl_validation.1 cLocal {} { rNote with ttl_seconds := some 30 } 0 30
      (by decide) rfl (by decide) (Or.inl (by decide)),
    put_ttl_validation.2 cLocal {} rTtlZero 0 rfl⟩

/-! ## Claim C10: ZK-mode hashing covers the ciphertext only -/

/-- Inversion of a successful ZK payload preparation. -/
theorem prep_zk_inv {c : Config} {kvs : JsObj} {pj ph : String}
    (hzk : c.zkMode = true)
    (h : preparePayload c (.obj kvs) = .ok (pj, ph)) :
    ∃ ct iv, kvs.lookup "ciphertext" = some ct ∧ kvs.lookup "iv" = some iv ∧
      jsTruthy ct = true ∧ jsTruthy iv = true ∧
      pj = jsonStringify (.obj kvs) ∧ sha256 ct = some ph := by
  unfold preparePayload at h
  rw [hzk] at h
  simp only [if_true] at h
  cases hct : kvs.lookup "ciphertext" with
  | none => rw [hct] at h; simp at h
  | some ct =>
    cases hiv : kvs.lookup "iv" with
    | none => rw [hct, hiv] at h; simp at h
    | some iv =>
      cases htr : (jsTruthy ct && jsTruthy iv) with
      | false => rw [hct, hiv] at h; simp [htr] at h
      | true =>
        cases hsh : sha256 ct with
        | none => rw [hct, hiv] at h; simp [htr, hsh] at h
        | some d =>
          rw [hct, hiv] at h
          simp only [htr, hsh, if_true] at h
          simp only [Except.ok.injEq, Prod.mk.injEq] at h
          refine ⟨ct, iv, rfl, rfl, ?_, ?_, h.1.symm, ?_⟩
          · exact (Bool.and_eq_true _ _ |>.mp htr).1
          · exact (Bool.and_eq_true _ _ |>.mp htr).2
          · rw [hsh, h.2]

/-- C10: in ZK mode the payload hash covers the ciphertext only: a second
put identical in kind, scope and inputs_hash whose payload has the same
ciphertext but a different iv computes the same fact id, reports
inserted = false, leaves the state unchanged, and the stored payload
remains the serialization of the first request payload, iv included. -/
theorem put_zk_iv_independent :
    ∀ (c : Config) (s : DbState) (r1 r2 : PutRequest) (t1 t2 : Int)
      (fid : String) (ins : Bool) (s1 : DbState) (kvs1 kvs2 : JsObj) (ct iv2 : JsValue),
      c.zkMode = true →
      r2.kind = r1.kind → r2.scope = r1.scope → r2.inputs_hash = r1.inputs_hash →
      r1.payload = .obj kvs1 → r2.payload = .obj kvs2 →
      kvs1.lookup "ciphertext" = some ct → kvs2.lookup "ciphertext" = some ct →
      kvs2.lookup "iv" = some iv2 → jsTruthy iv2 = true →
      validatePayloadSize c r2.payload = true →
      ttlRejected c r2.ttl_seconds = false →
      put c s r1 t1 = (.ok fid ins, s1) →
      put c s1 r2 t2 = (.ok fid false, s1) ∧
      (ins = true → ∃ row ∈ s1.facts, row.fact_id = fid ∧
        row.payload = jsonStringify r1.payload) := by
  intro c s r1 r2 t1 t2 fid ins s1 kvs1 kvs2 ct iv2
  intro hzk hkind hscope hih hp1 hp2 hct1 hct2 hiv2 hiv2t hsize2 httl2 h
  obtain ⟨h1, h2, pj, ph, h3, hfid, hins, hs1⟩ := put_ok_inv h
  rw [hp1] at h3
  obtain ⟨ct', iv', hct', hiv', hctt, hivt, hpj, hsh⟩ := prep_zk_inv hzk h3
  have hcteq : ct' = ct := by rw [hct1] at hct'; exact (Option.some.injEq _ _ ▸ hct').symm
  subst hcteq
  have h3' : preparePayload c r2.payload = .ok (jsonStringify r2.payload, ph) := by
    rw [hp2]
    unfold preparePayload
    rw [hzk]
    simp only [if_true]
    rw [hct2, hiv2]
    simp only [hctt, hiv2t, Bool.and_self, if_true, hsh]
  have hfid2 : factId r2.kind r2.scope r2.inputs_hash ph = fid := by
    rw [hkind, hscope, hih, hfid]
  have hpresent : hasFact s1 fid = true := hasFact_after_put h
  constructor
  · rw [put_eq c s1 r2 t2 hsize2 httl2 h3', hfid2]
    simp [hpresent]
  · intro hinst
    rw [hinst] at hins
    have hnot : hasFact s fid = false := by
      cases hh : hasFact s fid
      · rfl
      · rw [hh] at hins; simp at hins
    rw [hs1, if_neg (by rw [hnot]; simp)]
    refine ⟨rowOfPut r1 fid pj t1, by simp, rfl, ?_⟩
    show pj = jsonStringify r1.payload
    rw [hpj, hp1]

/-- Witness for C10: two ZK puts whose payloads share the ciphertext but
have different ivs. -/
theorem put_zk_iv_independent_witness :
    ∃ (fid : String) (s1 : DbState),
      put cZk {} (rZk "iv1") 5 = (.ok fid true, s1) ∧
      put cZk s1 (rZk "iv2") 6 = (.ok fid false, s1) := by
  obtain ⟨fid, ins, s1, h⟩ :
      ∃ fid ins s1, put cZk {} (rZk "iv1") 5 = (.ok fid ins, s1) := ⟨_, _, _, rfl⟩
  have hstep := put_zk_iv_independent cZk {} (rZk "iv1") (rZk "iv2") 5 6 fid ins s1
    (.cons "ciphertext" (.str "CT") (.cons "iv" (.str "iv1") .nil))
    (.cons "ciphertext" (.str "CT") (.cons "iv" (.str "iv2") .nil))
    (.str "CT") (.str "iv2")
    rfl rfl rfl rfl rfl rfl (by rfl) (by rfl) (by rfl) (by rfl)
    (by decide) (by decide) h
  have hins : ins = true := by
    have := (put_ok_inv h).2.2
    obtain ⟨pj, ph, h3, hfid, hi, hs⟩ := this
    simpa [hasFact, DbState.facts] using hi
  rw [hins] at h hstep
  exact ⟨fid, s1, h, hstep.1⟩

/-! ## Shared lemmas about frame search ordering -/

theorem take1_head {α : Type} (l : List α) : (l.take 1).head? = l.head? := by
  cases l <;> rfl

theorem char_eq_of_toNat_eq {a b : Char} (h : a.toNat = b.toNat) : a = b :=
  Char.ext (UInt32.ext h)

/-- Head comparison unfolding of the code-point order. -/
theorem charListLe_cons {x y : Char} {as bs : List Char} :
    charListLe (x :: as) (y :: bs) = true ↔
      x.toNat < y.toNat ∨ (x.toNat = y.toNat ∧ charListLe as bs = true) := by
  simp only [charListLe]
  split_ifs with h1 h2
  · exact iff_of_true rfl (Or.inl h1)
  · apply iff_of_false
    · simp
    · rintro (h | ⟨he, _⟩)
      · exact h1 h
      · omega
  · have he : x.toNat = y.toNat := by omega
    constructor
    · intro h
      exact Or.inr ⟨he, h⟩
    · rintro (h | ⟨_, h⟩)
      · exact absurd h h1
      · exact h

theorem charListLe_refl : ∀ a, charListLe a a = true := by
  intro a
  induction a with
  | nil => rfl
  | cons x as ih => simp [charListLe, Nat.lt_irrefl, ih]

theorem charListLe_total : ∀ a b, charListLe a b = true ∨ charListLe b a = true := by
  intro a
  induction a with
  | nil => intro b; exact Or.inl rfl
  | cons x as ih =>
    intro b
    cases b with
    | nil => exact Or.inr rfl
    | cons y bs =>
      rcases Nat.lt_trichotomy x.toNat y.toNat with h | h | h
      · exact Or.inl (charListLe_cons.mpr (Or.inl h))
      · rcases ih bs with hr | hr
        · exact Or.inl (charListLe_cons.mpr (Or.inr ⟨h, hr⟩))
        · exact Or.inr (charListLe_cons.mpr (Or.inr ⟨h.symm, hr⟩))
      · exact Or.inr (charListLe_cons.mpr (Or.inl h))

theorem charListLe_trans : ∀ a b c, charListLe a b = true → charListLe b c = true →
    charListLe a c = true := by
  intro a
  induction a with
  | nil => intro b c _ _; rfl
  | cons x as ih =>
    intro b c hab hbc
    cases b with
    | nil => simp [charListLe] at hab
    | cons y bs =>
      cases c with
      | nil => simp [charListLe] at hbc
      | cons z cs =>
        rcases charListLe_cons.mp hab with h1 | ⟨h1, h1r⟩ <;>
          rcases charListLe_cons.mp hbc with h2 | ⟨h2, h2r⟩
        · exact charListLe_cons.mpr (Or.inl (by omega))
        · exact charListLe_cons.mpr (Or.inl (by omega))
        · exact charListLe_cons.mpr (Or.inl (by omega))
        · exact charListLe_cons.mpr (Or.inr ⟨by omega, ih bs cs h1r h2r⟩)

theorem charListLe_antisymm : ∀ a b, charListLe a b = true → charListLe b a = true →
    a = b := by
  intro a
  induction a with
  | nil =>
    intro b _ hba
    cases b with
    | nil => rfl
    | cons y bs => simp [charListLe] at hba
  | cons x as ih =>
    intro b hab hba
    cases b with
    | nil => simp [charListLe] at hab
    | cons y bs =>
      rcases charListLe_cons.mp hab with h1 | ⟨h1, h1r⟩ <;>
        rcases charListLe_cons.mp hba with h2 | ⟨h2, h2r⟩
      · omega
      · omega
      · omega
      · rw [char_eq_of_toNat_eq h1, ih bs h1r h2r]

instance : IsTotal String strLeRel := ⟨fun a b => charListLe_total a.toList b.toList⟩

instance : IsTrans String strLeRel :=
  ⟨fun a b c => charListLe_trans a.toList b.toList c.toList⟩

instance : IsAntisymm String strLeRel :=
  ⟨fun a b h1 h2 => by
    have h := charListLe_antisymm a.toList b.toList h1 h2
    exact String.ext h⟩

instance : IsTotal FrameRow tsDescRel := ⟨fun a b => charListLe_total _ _⟩

instance : IsTrans FrameRow tsDescRel :=
  ⟨fun a b c h1 h2 => charListLe_trans _ _ _ h2 h1⟩

/-- The head of the timestamp-descending sort is a member carrying the
maximal timestamp, and it exists whenever the list is nonempty. -/
theorem sortDesc_head_spec (l : List FrameRow) :
    (∀ f, (sortByTimestampDesc l).head? = some f →
      f ∈ l ∧ ∀ g ∈ l, strLe g.timestamp f.timestamp = true) ∧
    (l ≠ [] → (sortByTimestampDesc l).head?.isSome) := by
  have hperm : (sortByTimestampDesc l).Perm l := List.perm_insertionSort tsDescRel l
  have hsorted : List.Sorted tsDescRel (sortByTimestampDesc l) :=
    List.sorted_insertionSort tsDescRel l
  constructor
  · intro f hf
    cases hms : sortByTimestampDesc l with
    | nil => rw [hms] at hf; simp at hf
    | cons x t =>
      rw [hms] at hf hperm hsorted
      simp only [List.head?_cons, Option.some.injEq] at hf
      constructor
      · have hx : x ∈ l := hperm.mem_iff.mp (List.mem_cons_self x t)
        rwa [hf] at hx
      · intro g hg
        rcases List.mem_cons.mp (hperm.mem_iff.mpr hg) with h1 | h1
        · rw [h1, ← hf]
          exact charListLe_refl _
        · have := (List.pairwise_cons.mp hsorted).1 g h1
          rw [← hf]
          exact this
  · intro hne
    cases hms : sortByTimestampDesc l with
    | nil =>
      rw [hms] at hperm
      exact absurd (List.Perm.eq_nil hperm.symm) hne
    | cons x t => simp

/-- searchFrames with a truthy reference_point and limit 1 keeps the
fuzzy matches sorted by descending timestamp, truncated to one row. -/
theorem searchFrames_rp_limit1 (fts : String → FrameRow → Bool) (s : DbState)
    (o : Option String) (rp : String) (ho : o = some rp) (hne : rp ≠ "") :
    searchFrames fts s { reference_point := o, limit := some 1 } =
      (sortByTimestampDesc (s.frames.filter (fts rp))).take 1 := by
  subst ho
  have ht : strTruthy (some rp) = true := by simp [strTruthy, hne]
  have hfil : ((s.frames.filter (fts rp)).filter (extraFilters
      { reference_point := some rp, jira := none, branch := none, limit := some 1 })) =
      s.frames.filter (fts rp) :=
    List.filter_eq_self.mpr (fun a _ => rfl)
  simp only [searchFrames, ht, if_true, Option.getD_some]
  rw [hfil]
  simp

/-- searchFrames with no reference_point, a truthy jira and limit 1
keeps the exact jira matches sorted by descending timestamp, truncated
to one row. -/
theorem searchFrames_jira_limit1 (fts : String → FrameRow → Bool) (s : DbState)
    (o : Option String) (j : String) (ho : o = some j) (hne : j ≠ "") :
    searchFrames fts s { jira := o, limit := some 1 } =
      (sortByTimestampDesc (s.frames.filter (fun r => r.jira == some j))).take 1 := by
  subst ho
  have hfil : s.frames.filter (extraFilters
      { reference_point := none, jira := some j, branch := none, limit := some 1 }) =
      s.frames.filter (fun r => r.jira == some j) :=
    List.filter_congr (fun a _ => by simp [extraFilters, hne])
  simp only [searchFrames, strTruthy, Bool.false_eq_true, if_false]
  rw [hfil]
  simp

/-! ## Claim C6: recall resolution priority -/

/-- C6 counterexample: frame_id is supplied (as the empty string) yet it
is not matched exactly and the other fields are not ignored: the falsy
frame_id falls through to the reference-point branch, which returns a
frame whose id is not the supplied frame_id. -/
theorem recall_empty_frame_id_counterexample :
    recallFrame ftsEq { frames := [frameW "f1" "2025-01-01" "alpha" none] }
        { frame_id := some "", reference_point := some "alpha" } =
      some (frameW "f1" "2025-01-01" "alpha" none, none) ∧
    (frameW "f1" "2025-01-01" "alpha" none).id ≠ "" ∧
    getFrameById { frames := [frameW "f1" "2025-01-01" "alpha" none] } "" = none := by
  refine ⟨by decide, by decide, by decide⟩

/-- C6 amended: recall resolves with fixed priority frame_id over
reference_point over jira, where a field participates only when truthy
(present and nonempty): a truthy frame_id is matched exactly and the
other fields are ignored; otherwise a truthy reference_point is matched
by the fuzzy matcher and the latest-timestamped match is returned;
otherwise a truthy jira is matched exactly against the ticket field and
the latest-timestamped match is returned. -/
theorem recall_resolution :
    ∀ (fts : String → FrameRow → Bool) (s : DbState) (q : RecallQuery),
      (∀ fid, q.frame_id = some fid → fid ≠ "" →
        recallFrame fts s q = (getFrameById s fid).map (fun f => (f, atlasFor s f)) ∧
        (∀ f a, recallFrame fts s q = some (f, a) → f.id = fid)) ∧
      (strTruthy q.frame_id = false →
        ∀ rp, q.reference_point = some rp → rp ≠ "" →
        ((∃ g ∈ s.frames, fts rp g = true) → (recallFrame fts s q).isSome) ∧
        (∀ f a, recallFrame fts s q = some (f, a) →
          f ∈ s.frames ∧ fts rp f = true ∧
          ∀ g ∈ s.frames, fts rp g = true → strLe g.timestamp f.timestamp = true)) ∧
      (strTruthy q.frame_id = false → strTruthy q.reference_point = false →
        ∀ j, q.jira = some j → j ≠ "" →
        ((∃ g ∈ s.frames, g.jira = some j) → (recallFrame fts s q).isSome) ∧
        (∀ f a, recallFrame fts s q = some (f, a) →
          f ∈ s.frames ∧ f.jira = some j ∧
          ∀ g ∈ s.frames, g.jira = some j → strLe g.timestamp f.timestamp = true)) := by
  intro fts s q
  refine ⟨?_, ?_, ?_⟩
  · intro fid hfid hne
    have ht : strTruthy (some fid) = true := by simp [strTruthy, hne]
    have hmap : recallFrame fts s q =
        (getFrameById s fid).map (fun f => (f, atlasFor s f)) := by
      simp only [recallFrame, hfid, ht, eq_self_iff_true, if_true, Option.getD_some]
    refine ⟨hmap, ?_⟩
    intro f a hf
    rw [hmap] at hf
    cases hg : getFrameById s fid with
    | none => rw [hg] at hf; simp at hf
    | some g =>
      rw [hg] at hf
      simp only [Option.map_some', Option.some.injEq, Prod.mk.injEq] at hf
      have hfind := List.find?_some hg
      rw [← hf.1]
      simpa using hfind
  · intro hff rp hrp hne
    have ht : strTruthy q.reference_point = true := by simp [strTruthy, hrp, hne]
    have hrec : recallFrame fts s q = ((sortByTimestampDesc
        (s.frames.filter (fts rp))).head?).map (fun f => (f, atlasFor s f)) := by
      simp only [recallFrame, hff, Bool.false_eq_true, if_false, ht, eq_self_iff_true,
        if_true]
      rw [searchFrames_rp_limit1 fts s q.reference_point rp hrp hne, take1_head]
    obtain ⟨hspec, hex⟩ := sortDesc_head_spec (s.frames.filter (fts rp))
    constructor
    · rintro ⟨g, hg, hgm⟩
      rw [hrec]
      have hnil : s.frames.filter (fts rp) ≠ [] := by
        intro hnil
        have : g ∈ s.frames.filter (fts rp) := List.mem_filter.mpr ⟨hg, hgm⟩
        rw [hnil] at this
        simp at this
      have := hex hnil
      cases hh : (sortByTimestampDesc (s.frames.filter (fts rp))).head? with
      | none => rw [hh] at this; simp at this
      | some f => simp [hh]
    · intro f a hf
      rw [hrec] at hf
      cases hh : (sortByTimestampDesc (s.frames.filter (fts rp))).head? with
      | none => rw [hh] at hf; simp at hf
      | some g =>
        rw [hh] at hf
        simp only [Option.map_some', Option.some.injEq, Prod.mk.injEq] at hf
        obtain ⟨hmem, hmax⟩ := hspec g hh
        rw [← hf.1]
        refine ⟨(List.mem_filter.mp hmem).1, (List.mem_filter.mp hmem).2, ?_⟩
        intro g' hg' hm'
        exact hmax g' (List.mem_filter.mpr ⟨hg', hm'⟩)
  · intro hff hfr j hj hne
    have ht : strTruthy q.jira = true := by simp [strTruthy, hj, hne]
    have hrec : recallFrame fts s q = ((sortByTimestampDesc
        (s.frames.filter (fun r => r.jira == some j))).head?).map
          (fun f => (f, atlasFor s f)) := by
      simp only [recallFrame, hff, hfr, Bool.false_eq_true, if_false, ht,
        eq_self_iff_true, if_true]
      rw [searchFrames_jira_limit1 fts s q.jira j hj hne, take1_head]
    obtain ⟨hspec, hex⟩ := sortDesc_head_spec (s.frames.filter (fun r => r.jira == some j))
    constructor
    · rintro ⟨g, hg, hgm⟩
      rw [hrec]
      have hnil : s.frames.filter (fun r => r.jira == some j) ≠ [] := by
        intro hnil
        have : g ∈ s.frames.filter (fun r => r.jira == some j) :=
          List.mem_filter.mpr ⟨hg, by simp [hgm]⟩
        rw [hnil] at this
        simp at this
      have := hex hnil
      cases hh : (sortByTimestampDesc (s.frames.filter (fun r => r.jira == some j))).head? with
      | none => rw [hh] at this; simp at this
      | some f => simp [hh]
    · intro f a hf
      rw [hrec] at hf
      cases hh : (sortByTimestampDesc (s.frames.filter (fun r => r.jira == some j))).head? with
      | none => rw [hh] at hf; simp at hf
      | some g =>
        rw [hh] at hf
        simp only [Option.map_some', Option.some.injEq, Prod.mk.injEq] at hf
        obtain ⟨hmem, hmax⟩ := hspec g hh
        rw [← hf.1]
        have h1 := (List.mem_filter.mp hmem).1
        have h2 := (List.mem_filter.mp hmem).2
        refine ⟨h1, by simpa using h2, ?_⟩
        intro g' hg' hm'
        exact hmax g' (List.mem_filter.mpr ⟨hg', by simp [hm']⟩)

/-- Witness for C6: two frames share the ticket T-1 and recall by jira
alone returns the one with the later timestamp. -/
theorem recall_resolution_witness :
    recallFrame ftsEq
        { frames := [frameW "f1" "2025-01-01" "alpha" (some "T-1"),
                     frameW "f2" "2025-02-02" "beta" (some "T-1")] }
        { jira := some "T-1" } =
      some (frameW "f2" "2025-02-02" "beta" (some "T-1"), none) ∧
    strLe (frameW "f1" "2025-01-01" "alpha" (some "T-1")).timestamp
      (frameW "f2" "2025-02-02" "beta" (some "T-1")).timestamp = true := by
  have h := ((recall_resolution ftsEq
      { frames := [frameW "f1" "2025-01-01" "alpha" (some "T-1"),
                   frameW "f2" "2025-02-02" "beta" (some "T-1")] }
      { jira := some "T-1" }).2.2 rfl rfl "T-1" rfl (by decide)).2
  have hr : recallFrame ftsEq
      { frames := [frameW "f1" "2025-01-01" "alpha" (some "T-1"),
                   frameW "f2" "2025-02-02" "beta" (some "T-1")] }
      { jira := some "T-1" } =
      some (frameW "f2" "2025-02-02" "beta" (some "T-1"), none) := by decide
  refine ⟨hr, ?_⟩
  exact (h _ _ hr).2.2 _ (by simp) (by decide)

/-! ## Shared lemmas about neighborhood expansion -/

/-- Folding addNbr over a neighbor list appends one common block of new
modules to both components: exactly the policy-member neighbors not
already present. -/
theorem addNbr_fold (p : Policy) (ns : List String) :
    ∀ acc : List String × List String, ∃ δ : List String,
      ns.foldl (addNbr p) acc = (acc.1 ++ δ, acc.2 ++ δ) ∧ δ.Nodup ∧
      (∀ x, x ∈ δ ↔ x ∈ ns ∧ policyHas p x = true ∧ x ∉ acc.1) := by
  induction ns with
  | nil => exact fun acc => ⟨[], by simp, List.nodup_nil, by simp⟩
  | cons n ns ih =>
    intro acc
    by_cases hc : n ∉ acc.1 ∧ policyHas p n = true
    · have hstep : addNbr p acc n = (acc.1 ++ [n], acc.2 ++ [n]) := by
        rw [addNbr, if_pos hc]
      obtain ⟨δ, h1, h2, h3⟩ := ih (acc.1 ++ [n], acc.2 ++ [n])
      refine ⟨n :: δ, ?_, ?_, ?_⟩
      · rw [List.foldl_cons, hstep, h1]
        simp
      · refine List.Nodup.cons ?_ h2
        intro hmem
        exact ((h3 n).mp hmem).2.2 (by simp)
      · intro x
        constructor
        · intro hx
          rcases List.mem_cons.mp hx with rfl | hx'
          · exact ⟨List.mem_cons_self _ _, hc.2, hc.1⟩
          · obtain ⟨hns, hpol, hnacc⟩ := (h3 x).mp hx'
            have : x ∉ acc.1 := fun hmem => hnacc (by simp [hmem])
            exact ⟨List.mem_cons_of_mem _ hns, hpol, this⟩
        · rintro ⟨hxs, hpol, hnacc⟩
          by_cases hxn : x = n
          · exact hxn ▸ List.mem_cons_self _ _
          · rcases List.mem_cons.mp hxs with rfl | hx'
            · exact absurd rfl hxn
            · refine List.mem_cons_of_mem _ ((h3 x).mpr ⟨hx', hpol, ?_⟩)
              simp [hnacc, hxn]
    · have hstep : addNbr p acc n = acc := by rw [addNbr, if_neg hc]
      obtain ⟨δ, h1, h2, h3⟩ := ih acc
      refine ⟨δ, by rw [List.foldl_cons, hstep]; exact h1, h2, ?_⟩
      intro x
      rw [h3 x]
      constructor
      · rintro ⟨hxs, hpol, hnacc⟩
        exact ⟨List.mem_cons_of_mem _ hxs, hpol, hnacc⟩
      · rintro ⟨hxs, hpol, hnacc⟩
        rcases List.mem_cons.mp hxs with rfl | hx'
        · rw [not_and_or] at hc
          rcases hc with hc | hc
          · exact absurd hnacc (by simpa using hc)
          · exact absurd hpol hc
        · exact ⟨hx', hpol, hnacc⟩

/-- One expansion level appends exactly the policy-member graph
neighbors of the current level that were not yet in the neighborhood,
and the next level is that same block. -/
theorem expandLevel_spec (g : AdjacencyGraph) (p : Policy) :
    ∀ (curr : List String) (acc : List String × List String),
      ∃ Δ : List String,
        curr.foldl (fun a m => (neighborsOf g m).foldl (addNbr p) a) acc =
          (acc.1 ++ Δ, acc.2 ++ Δ) ∧ Δ.Nodup ∧
        (∀ x, x ∈ Δ ↔ (∃ m ∈ curr, x ∈ neighborsOf g m) ∧
          policyHas p x = true ∧ x ∉ acc.1) := by
  intro curr
  induction curr with
  | nil => exact fun acc => ⟨[], by simp, List.nodup_nil, by simp⟩
  | cons m curr ih =>
    intro acc
    obtain ⟨δ, hd1, hd2, hd3⟩ := addNbr_fold p (neighborsOf g m) acc
    obtain ⟨Δ, h1, h2, h3⟩ := ih (acc.1 ++ δ, acc.2 ++ δ)
    refine ⟨δ ++ Δ, ?_, ?_, ?_⟩
    · rw [List.foldl_cons, hd1, h1]
      simp
    · rw [List.nodup_append]
      refine ⟨hd2, h2, ?_⟩
      intro x hx hx2
      have := ((h3 x).mp hx2).2.2
      simp only [List.mem_append, not_or] at this
      exact this.2 hx
    · intro x
      simp only [List.mem_append]
      constructor
      · rintro (hx | hx)
        · obtain ⟨hns, hpol, hnacc⟩ := (hd3 x).mp hx
          exact ⟨⟨m, List.mem_cons_self _ _, hns⟩, hpol, hnacc⟩
        · obtain ⟨⟨m', hm', hns⟩, hpol, hnacc⟩ := (h3 x).mp hx
          have hnacc' : x ∉ acc.1 := fun hmem => hnacc (by simp [hmem])
          exact ⟨⟨m', List.mem_cons_of_mem _ hm', hns⟩, hpol, hnacc'⟩
      · rintro ⟨⟨m', hm', hns⟩, hpol, hnacc⟩
        by_cases hδ : x ∈ δ
        · exact Or.inl hδ
        · refine Or.inr ((h3 x).mpr ?_)
          rcases List.mem_cons.mp hm' with rfl | hm''
          · exact absurd ((hd3 x).mpr ⟨hns, hpol, hnacc⟩) hδ
          · refine ⟨⟨m', hm'', hns⟩, hpol, ?_⟩
            simp [hnacc, hδ]

/-- expandLevel itself, specialised to the empty next-level accumulator. -/
theorem expandLevel_props (g : AdjacencyGraph) (p : Policy) (nbh curr : List String) :
    ∃ Δ : List String, expandLevel g p nbh curr = (nbh ++ Δ, Δ) ∧ Δ.Nodup ∧
      (∀ x, x ∈ Δ ↔ (∃ m ∈ curr, x ∈ neighborsOf g m) ∧
        policyHas p x = true ∧ x ∉ nbh) := by
  obtain ⟨Δ, h1, h2, h3⟩ := expandLevel_spec g p curr (nbh, [])
  exact ⟨Δ, by rw [expandLevel, h1]; simp, h2, h3⟩

/-- Reachability is monotone in the hop bound. -/
theorem reach_mono {g : AdjacencyGraph} {p : Policy} {start : List String} :
    ∀ {k x}, ReachWithin g p start k x → ReachWithin g p start (k + 1) x := by
  intro k x h
  induction h with
  | seed hm => exact .seed hm
  | step _ hn hp ih => exact .step ih hn hp

theorem reach_le {g : AdjacencyGraph} {p : Policy} {start : List String}
    {k k' : Nat} {x : String} (hle : k ≤ k') (h : ReachWithin g p start k x) :
    ReachWithin g p start k' x := by
  induction hle with
  | refl => exact h
  | step _ ih => exact reach_mono ih

/-- Enlarging the start set preserves reachability. -/
theorem reach_of_subset {g : AdjacencyGraph} {p : Policy} {s1 s2 : List String}
    (hs : ∀ m ∈ s1, m ∈ s2) :
    ∀ {k x}, ReachWithin g p s1 k x → ReachWithin g p s2 k x := by
  intro k x h
  induction h with
  | seed hm => exact .seed (hs _ hm)
  | step _ hn hp ih => exact .step ih hn hp

/-- One step of reachability from a frontier whose members are all
policy-member neighbors of the base set. -/
theorem reach_of_frontier {g : AdjacencyGraph} {p : Policy} {curr Δ : List String}
    (hΔ : ∀ d ∈ Δ, ∃ m ∈ curr, d ∈ neighborsOf g m ∧ policyHas p d = true) :
    ∀ {k x}, ReachWithin g p Δ k x → ReachWithin g p curr (k + 1) x := by
  intro k x h
  induction h with
  | seed hm =>
    obtain ⟨m, hmc, hn, hp⟩ := hΔ _ hm
    exact reach_le (Nat.succ_le_succ (Nat.zero_le _)) (.step (.seed hmc) hn hp)
  | step _ hn hp ih => exact .step ih hn hp

/-- Correctness of the expansion loop: starting from a frontier that is
contained in the neighborhood, with every policy-member neighbor of an
already-expanded module present, the loop computes exactly the
neighborhood together with everything reachable from the frontier within
the remaining number of hops. -/
theorem bfsLoop_spec (g : AdjacencyGraph) (p : Policy) :
    ∀ (fuel : Nat) (nbh curr : List String),
      (∀ m ∈ curr, m ∈ nbh) →
      (∀ m ∈ nbh, m ∉ curr → ∀ n ∈ neighborsOf g m, policyHas p n = true → n ∈ nbh) →
      ∀ x, x ∈ bfsLoop g p fuel nbh curr ↔
        x ∈ nbh ∨ ReachWithin g p curr fuel x := by
  intro fuel
  induction fuel with
  | zero =>
    intro nbh curr hsub _ x
    simp only [bfsLoop]
    constructor
    · exact Or.inl
    · rintro (h | h)
      · exact h
      · cases h with
        | seed hm => exact hsub _ hm
  | succ fuel ih =>
    intro nbh curr hsub hclosed x
    obtain ⟨Δ, hE, hN, hC⟩ := expandLevel_props g p nbh curr
    rw [bfsLoop, hE]
    by_cases hemp : Δ.isEmpty
    · rw [if_pos hemp]
      have hΔnil : Δ = [] := List.isEmpty_iff.mp hemp
      subst hΔnil
      simp only [List.append_nil]
      have hclosed_all : ∀ k y, ReachWithin g p curr k y → y ∈ nbh := by
        intro k y h
        induction h with
        | seed hm => exact hsub _ hm
        | step hr hn hp ihh =>
          rename_i m n
          by_cases hmem : n ∈ nbh
          · exact hmem
          · by_cases hmc : m ∈ curr
            · exact absurd ((hC n).mpr ⟨⟨m, hmc, hn⟩, hp, hmem⟩) (by simp)
            · exact hclosed m ihh hmc n hn hp
      constructor
      · exact Or.inl
      · rintro (h | h)
        · exact h
        · exact hclosed_all _ _ h
    · rw [if_neg hemp]
      have hsub' : ∀ m ∈ Δ, m ∈ nbh ++ Δ := fun m hm => by simp [hm]
      have hclosed' : ∀ m ∈ nbh ++ Δ, m ∉ Δ →
          ∀ n ∈ neighborsOf g m, policyHas p n = true → n ∈ nbh ++ Δ := by
        intro m hm hmΔ n hn hp
        have hmnbh : m ∈ nbh := by
          rcases List.mem_append.mp hm with h | h
          · exact h
          · exact absurd h hmΔ
        by_cases hmc : m ∈ curr
        · by_cases hnn : n ∈ nbh
          · simp [hnn]
          · have : n ∈ Δ := (hC n).mpr ⟨⟨m, hmc, hn⟩, hp, hnn⟩
            simp [this]
        · have := hclosed m hmnbh hmc n hn hp
          simp [this]
      rw [ih (nbh ++ Δ) Δ hsub' hclosed' x]
      have hfront : ∀ d ∈ Δ, ∃ m ∈ curr, d ∈ neighborsOf g m ∧ policyHas p d = true :=
        fun d hd => by
          obtain ⟨⟨m, hmc, hn⟩, hp, _⟩ := (hC d).mp hd
          exact ⟨m, hmc, hn, hp⟩
      constructor
      · rintro (hx | hx)
        · rcases List.mem_append.mp hx with h | h
          · exact Or.inl h
          · obtain ⟨⟨m, hmc, hn⟩, hp, _⟩ := (hC x).mp h
            exact Or.inr (reach_le (Nat.succ_le_succ (Nat.zero_le fuel))
              (.step (.seed hmc) hn hp))
        · exact Or.inr (reach_of_frontier hfront hx)
      · rintro (hx | hx)
        · exact Or.inl (by simp [hx])
        · have hA : ∀ k y, ReachWithin g p curr k y →
              y ∈ nbh ∨ ∃ k', k' + 1 ≤ k ∧ ReachWithin g p Δ k' y := by
            intro k y h
            induction h with
            | seed hm => exact Or.inl (hsub _ hm)
            | step hr hn hp ihh =>
              rename_i k0 m n
              rcases ihh with hm | ⟨k', hk', hr'⟩
              · by_cases hmc : m ∈ curr
                · by_cases hnn : n ∈ nbh
                  · exact Or.inl hnn
                  · exact Or.inr ⟨0, Nat.succ_le_succ (Nat.zero_le _),
                      .seed ((hC n).mpr ⟨⟨m, hmc, hn⟩, hp, hnn⟩)⟩
                · exact Or.inl (hclosed m hm hmc n hn hp)
              · exact Or.inr ⟨k' + 1, Nat.succ_le_succ hk', .step hr' hn hp⟩
          rcases hA _ _ hx with h | ⟨k', hk', hr'⟩
          · exact Or.inl (by simp [h])
          · exact Or.inr (reach_le (Nat.le_of_succ_le_succ hk') hr')

/-- The expansion loop preserves freedom from duplicates. -/
theorem bfsLoop_nodup (g : AdjacencyGraph) (p : Policy) :
    ∀ (fuel : Nat) (nbh curr : List String), nbh.Nodup →
      (bfsLoop g p fuel nbh curr).Nodup := by
  intro fuel
  induction fuel with
  | zero => intro nbh curr h; exact h
  | succ fuel ih =>
    intro nbh curr h
    obtain ⟨Δ, hE, hN, hC⟩ := expandLevel_props g p nbh curr
    have happ : (nbh ++ Δ).Nodup := by
      rw [List.nodup_append]
      exact ⟨h, hN, fun x hx hx2 => ((hC x).mp hx2).2.2 hx⟩
    rw [bfsLoop, hE]
    by_cases hemp : Δ.isEmpty
    · rw [if_pos hemp]; exact happ
    · rw [if_neg hemp]; exact ih _ _ happ

/-- The expansion loop only ever adds policy members. -/
theorem bfsLoop_pol (g : AdjacencyGraph) (p : Policy) :
    ∀ (fuel : Nat) (nbh curr : List String),
      (∀ x ∈ nbh, policyHas p x = true) →
      ∀ x ∈ bfsLoop g p fuel nbh curr, policyHas p x = true := by
  intro fuel
  induction fuel with
  | zero => intro nbh curr h; exact h
  | succ fuel ih =>
    intro nbh curr h
    obtain ⟨Δ, hE, hN, hC⟩ := expandLevel_props g p nbh curr
    have happ : ∀ x ∈ nbh ++ Δ, policyHas p x = true := by
      intro x hx
      rcases List.mem_append.mp hx with hx | hx
      · exact h x hx
      · exact ((hC x).mp hx).2.1
    rw [bfsLoop, hE]
    by_cases hemp : Δ.isEmpty
    · rw [if_pos hemp]; exact happ
    · rw [if_neg hemp]; exact ih _ _ happ

/-- Validated extraction computes the loop result verbatim. -/
theorem extract_eq (g : AdjacencyGraph) (p : Policy) (seeds : List String) (r : Int)
    (h1 : seeds ≠ []) (h2 : 0 ≤ r) (h3 : ∀ m ∈ seeds, policyHas p m = true) :
    extractNeighborhood seeds g p r = .ok
      { seed_modules := seeds, fold_radius := r,
        modules := (sortStrings (bfsLoop g p r.toNat seeds.dedup seeds.dedup)).filterMap
          (fun m => (lookupRecord p m).map (buildModuleData m)) } := by
  rw [extractNeighborhood]
  rw [if_neg (by simp [List.isEmpty_iff, h1])]
  rw [if_neg (by omega)]
  have hfind : seeds.find? (fun m => ¬ policyHas p m) = none := by
    apply List.find?_eq_none.mpr
    intro x hx
    simp [h3 x hx]
  rw [hfind]

/-- Deduplicating the start set does not change reachability. -/
theorem reach_dedup_iff {g : AdjacencyGraph} {p : Policy} {seeds : List String}
    {k : Nat} {x : String} :
    ReachWithin g p seeds.dedup k x ↔ ReachWithin g p seeds k x :=
  ⟨reach_of_subset (fun m hm => List.mem_dedup.mp hm),
   reach_of_subset (fun m hm => List.mem_dedup.mpr hm)⟩

/-- The ids of the produced module list are exactly the underlying
module set, whenever every member is a policy member. -/
theorem mem_modules_iff (p : Policy) (L : List String)
    (hpol : ∀ x ∈ L, policyHas p x = true) (m : String) :
    m ∈ ((sortStrings L).filterMap
        (fun x => (lookupRecord p x).map (buildModuleData x))).map ModuleData.id ↔
      m ∈ L := by
  have hsortmem : ∀ y : String, y ∈ sortStrings L ↔ y ∈ L :=
    fun y => (List.perm_insertionSort strLeRel L).mem_iff
  constructor
  · intro h
    obtain ⟨md, hmd, hid⟩ := List.mem_map.mp h
    obtain ⟨x, hx, hmap⟩ := List.mem_filterMap.mp hmd
    cases hlk : lookupRecord p x with
    | none => rw [hlk] at hmap; simp at hmap
    | some meta =>
      rw [hlk] at hmap
      simp only [Option.map_some', Option.some.injEq] at hmap
      rw [← hid, ← hmap]
      exact (hsortmem x).mp hx
  · intro h
    have hx : m ∈ sortStrings L := (hsortmem m).mpr h
    have hpol' := hpol m h
    rw [policyHas] at hpol'
    cases hlk : lookupRecord p m with
    | none => rw [hlk] at hpol'; simp at hpol'
    | some meta =>
      apply List.mem_map.mpr
      refine ⟨buildModuleData m meta, ?_, rfl⟩
      exact List.mem_filterMap.mpr ⟨m, hx, by rw [hlk]; rfl⟩

/-- Every produced module is a policy member. -/
theorem modules_pol (p : Policy) (L : List String) :
    ∀ md ∈ (sortStrings L).filterMap
        (fun x => (lookupRecord p x).map (buildModuleData x)),
      policyHas p md.id = true := by
  intro md hmd
  obtain ⟨x, hx, hmap⟩ := List.mem_filterMap.mp hmd
  cases hlk : lookupRecord p x with
  | none => rw [hlk] at hmap; simp at hmap
  | some meta =>
    rw [hlk] at hmap
    simp only [Option.map_some', Option.some.injEq] at hmap
    rw [← hmap]
    show policyHas p x = true
    rw [policyHas, hlk]
    rfl

/-! ## Claim C3: the extracted neighborhood is bounded reachability -/

/-- C3: for every valid call (nonempty seeds, all present in the policy,
nonnegative radius) the extraction succeeds, echoes the seeds and the
radius, and its module ids are exactly the modules reachable from some
seed in at most foldRadius hops where every traversed module beyond the
seeds is a policy member; every returned module is a policy member, so a
graph neighbor absent from the policy is never included nor traversed
through. -/
theorem extractNeighborhood_characterization :
    ∀ (g : AdjacencyGraph) (p : Policy) (seeds : List String) (r : Int),
      seeds ≠ [] → 0 ≤ r → (∀ m ∈ seeds, policyHas p m = true) →
      ∃ nd, extractNeighborhood seeds g p r = .ok nd ∧
        nd.seed_modules = seeds ∧ nd.fold_radius = r ∧
        (∀ m, m ∈ nd.modules.map ModuleData.id ↔ ReachWithin g p seeds r.toNat m) ∧
        (∀ md ∈ nd.modules, policyHas p md.id = true) := by
  intro g p seeds r h1 h2 h3
  refine ⟨_, extract_eq g p seeds r h1 h2 h3, rfl, rfl, ?_, ?_⟩
  · intro m
    have hpol : ∀ x ∈ bfsLoop g p r.toNat seeds.dedup seeds.dedup, policyHas p x = true :=
      bfsLoop_pol g p _ _ _ (fun x hx => h3 x (List.mem_dedup.mp hx))
    rw [mem_modules_iff p _ hpol m]
    rw [bfsLoop_spec g p r.toNat seeds.dedup seeds.dedup (fun y hy => hy)
      (fun y hy hyc => absurd hy hyc) m]
    constructor
    · rintro (h | h)
      · exact .seed (List.mem_dedup.mp h)
      · exact reach_dedup_iff.mp h
    · intro h
      exact Or.inr (reach_dedup_iff.mpr h)
  · exact modules_pol p _

/-- Witness for C3: the linear chain A to B to C to D seeded at A, at
radii 0, 1, 2 and 100, plus the characterization applied at radius 2. -/
theorem extractNeighborhood_characterization_witness :
    extractNeighborhood ["A"] gChain pChain 0 =
      .ok { seed_modules := ["A"], fold_radius := 0,
            modules := [buildModuleData "A" metaA] } ∧
    extractNeighborhood ["A"] gChain pChain 1 =
      .ok { seed_modules := ["A"], fold_radius := 1,
            modules := [buildModuleData "A" metaA, buildModuleData "B" metaA] } ∧
    extractNeighborhood ["A"] gChain pChain 2 =
      .ok { seed_modules := ["A"], fold_radius := 2,
            modules := [buildModuleData "A" metaA, buildModuleData "B" metaA,
                        buildModuleData "C" metaA] } ∧
    extractNeighborhood ["A"] gChain pChain 100 =
      .ok { seed_modules := ["A"], fold_radius := 100,
            modules := [buildModuleData "A" metaA, buildModuleData "B" metaA,
                        buildModuleData "C" metaA, buildModuleData "D" metaA] } ∧
    (∃ nd, extractNeighborhood ["A"] gChain pChain 2 = .ok nd ∧
      nd.seed_modules = ["A"] ∧ nd.fold_radius = 2 ∧
      (∀ m, m ∈ nd.modules.map ModuleData.id ↔
        ReachWithin gChain pChain ["A"] (2 : Int).toNat m) ∧
      (∀ md ∈ nd.modules, policyHas pChain md.id = true)) :=
  ⟨by rfl, by rfl, by rfl, by rfl,
    extractNeighborhood_characterization gChain pChain ["A"] 2
      (by decide) (by decide) (by decide)⟩

/-! ## Claim C4: saturating semantics -/

/-- C4 counterexample: on a single-module policy with no edges the
expansion is saturated at radius 0 (one hop reaches nothing new), yet
the results of extraction at radius 100 and radius 0 are not equal
records, because the returned fold_radius field echoes the request; the
module lists are equal. -/
theorem extract_radius_field_counterexample :
    (∀ m, ReachWithin gSingle pSingle ["A"] 1 m →
      ReachWithin gSingle pSingle ["A"] 0 m) ∧
    (∃ nd1 nd2, extractNeighborhood ["A"] gSingle pSingle 100 = .ok nd1 ∧
      extractNeighborhood ["A"] gSingle pSingle 0 = .ok nd2 ∧
      nd1.modules = nd2.modules ∧ nd1 ≠ nd2) := by
  constructor
  · intro m h
    cases h with
    | seed hm => exact .seed hm
    | step hr hn hp => simp [neighborsOf, lookupRecord, gSingle] at hn
  · exact ⟨_, _, rfl, rfl, by rfl, by decide⟩

/-- Once reachability is saturated at N, it is saturated at every level
at or beyond N. -/
theorem reach_saturate {g : AdjacencyGraph} {p : Policy} {start : List String} {N : Nat}
    (hsat : ∀ m, ReachWithin g p start (N + 1) m → ReachWithin g p start N m) :
    ∀ (k : Nat) (m : String), ReachWithin g p start (N + k) m →
      ReachWithin g p start N m := by
  have hup : ∀ (d : Nat) (m : String), ReachWithin g p start (N + d + 1) m →
      ReachWithin g p start (N + d) m := by
    intro d
    induction d with
    | zero => exact hsat
    | succ d ihd =>
      intro m hm
      cases hm with
      | seed hmem => exact .seed hmem
      | step hr hn hp => exact .step (ihd _ hr) hn hp
  intro k
  induction k with
  | zero => exact fun m h => h
  | succ k ihk => exact fun m hm => ihk m (hup k m hm)

/-- C4 amended: once expansion is saturated at radius N (one more hop
reaches nothing new), extraction at any radius at or beyond N yields the
same module list and the same seed list as extraction at N; only the
echoed fold_radius field differs. -/
theorem extractNeighborhood_saturating :
    ∀ (g : AdjacencyGraph) (p : Policy) (seeds : List String) (N r : Int),
      seeds ≠ [] → 0 ≤ N → N ≤ r →
      (∀ m ∈ seeds, policyHas p m = true) →
      (∀ m, ReachWithin g p seeds (N.toNat + 1) m → ReachWithin g p seeds N.toNat m) →
      ∃ nd1 nd2, extractNeighborhood seeds g p r = .ok nd1 ∧
        extractNeighborhood seeds g p N = .ok nd2 ∧
        nd1.modules = nd2.modules ∧ nd1.seed_modules = nd2.seed_modules := by
  intro g p seeds N r h1 hN hNr h3 hsat
  have hr0 : 0 ≤ r := le_trans hN hNr
  refine ⟨_, _, extract_eq g p seeds r h1 hr0 h3, extract_eq g p seeds N h1 hN h3, ?_, rfl⟩
  show ((sortStrings (bfsLoop g p r.toNat seeds.dedup seeds.dedup)).filterMap
      (fun m => (lookupRecord p m).map (buildModuleData m))) =
    ((sortStrings (bfsLoop g p N.toNat seeds.dedup seeds.dedup)).filterMap
      (fun m => (lookupRecord p m).map (buildModuleData m)))
  have hsat' : ∀ m, ReachWithin g p seeds.dedup (N.toNat + 1) m →
      ReachWithin g p seeds.dedup N.toNat m :=
    fun m hm => reach_dedup_iff.mpr (hsat m (reach_dedup_iff.mp hm))
  have hsub : ∀ y ∈ seeds.dedup, y ∈ seeds.dedup := fun y hy => hy
  have hcl : ∀ y ∈ seeds.dedup, y ∉ seeds.dedup → ∀ n ∈ neighborsOf g y,
      policyHas p n = true → n ∈ seeds.dedup := fun y hy hyc => absurd hy hyc
  have hmemiff : ∀ x, x ∈ bfsLoop g p r.toNat seeds.dedup seeds.dedup ↔
      x ∈ bfsLoop g p N.toNat seeds.dedup seeds.dedup := by
    intro x
    rw [bfsLoop_spec g p r.toNat seeds.dedup seeds.dedup hsub hcl x,
      bfsLoop_spec g p N.toNat seeds.dedup seeds.dedup hsub hcl x]
    have htom : N.toNat ≤ r.toNat := Int.toNat_le_toNat hNr
    constructor
    · rintro (h | h)
      · exact Or.inl h
      · refine Or.inr ?_
        have heq : N.toNat + (r.toNat - N.toNat) = r.toNat := by omega
        rw [← heq] at h
        exact reach_saturate hsat' (r.toNat - N.toNat) x h
    · rintro (h | h)
      · exact Or.inl h
      · exact Or.inr (reach_le htom h)
  have hnd1 : (bfsLoop g p r.toNat seeds.dedup seeds.dedup).Nodup :=
    bfsLoop_nodup g p _ _ _ (List.nodup_dedup seeds)
  have hnd2 : (bfsLoop g p N.toNat seeds.dedup seeds.dedup).Nodup :=
    bfsLoop_nodup g p _ _ _ (List.nodup_dedup seeds)
  have hperm : (bfsLoop g p r.toNat seeds.dedup seeds.dedup).Perm
      (bfsLoop g p N.toNat seeds.dedup seeds.dedup) :=
    (List.perm_ext_iff_of_nodup hnd1 hnd2).mpr hmemiff
  have key : sortStrings (bfsLoop g p r.toNat seeds.dedup seeds.dedup) =
      sortStrings (bfsLoop g p N.toNat seeds.dedup seeds.dedup) :=
    List.eq_of_perm_of_sorted
      ((List.perm_insertionSort strLeRel _).trans
        (hperm.trans (List.perm_insertionSort strLeRel _).symm))
      (List.sorted_insertionSort strLeRel _)
      (List.sorted_insertionSort strLeRel _)
  rw [key]

/-- Witness for C4: the single-module component is saturated at radius
0, and extraction at radius 100 returns the same module list as at
radius 0. -/
theorem extractNeighborhood_saturating_witness :
    ∃ nd1 nd2, extractNeighborhood ["A"] gSingle pSingle 100 = .ok nd1 ∧
      extractNeighborhood ["A"] gSingle pSingle 0 = .ok nd2 ∧
      nd1.modules = nd2.modules ∧ nd1.seed_modules = nd2.seed_modules :=
  extractNeighborhood_saturating gSingle pSingle ["A"] 0 100
    (by decide) (by decide) (by decide) (by decide)
    (by
      intro m h
      cases h with
      | seed hm => exact .seed hm
      | step hr hn hp => simp [neighborsOf, lookupRecord, gSingle] at hn)


/-! ## Shared lemmas about canonical serialization -/

theorem lookup_isSome_iff_mem_keys (k : String) :
    ∀ kvs : JsObj, (kvs.lookup k).isSome = true ↔ k ∈ kvs.keys := by
  apply JsObj.recShallow
  · simp [JsObj.lookup, JsObj.keys]
  · intro k' v tl ih
    by_cases h : k' = k
    · simp [JsObj.lookup, JsObj.keys, h]
    · simp only [JsObj.lookup, JsObj.keys, if_neg h, List.mem_cons, ih]
      constructor
      · exact Or.inr
      · rintro (rfl | hm)
        · exact absurd rfl h
        · exact hm

theorem lookupField_serializeFields (K : List String) (k : String) :
    ∀ kvs : JsObj, lookupField (serializeFields K kvs) k =
      (kvs.lookup k).map (jsonStringifyReplacer K) := by
  apply JsObj.recShallow
  · simp [serializeFields, lookupField, JsObj.lookup]
  · intro k' v tl ih
    by_cases h : k' = k <;>
      simp [serializeFields, lookupField, JsObj.lookup, h, ih]

/-- Sorting is insensitive to the order of the input list. -/
theorem sortStrings_congr {l1 l2 : List String} (h : l1.Perm l2) :
    sortStrings l1 = sortStrings l2 :=
  List.eq_of_perm_of_sorted
    ((List.perm_insertionSort strLeRel l1).trans
      (h.trans (List.perm_insertionSort strLeRel l2).symm))
    (List.sorted_insertionSort strLeRel l1)
    (List.sorted_insertionSort strLeRel l2)

/-- Values equal up to key order serialize identically under every array
replacer, and hash identically. -/
theorem keyPerm_main : ∀ {v w : JsValue}, KeyPerm v w →
    (∀ K, jsonStringifyReplacer K v = jsonStringifyReplacer K w) ∧
      sha256 v = sha256 w := by
  intro v w h
  refine @KeyPerm.rec
    (fun v w _ => (∀ K, jsonStringifyReplacer K v = jsonStringifyReplacer K w) ∧
      sha256 v = sha256 w)
    (fun xs ys _ => (∀ K, serializeElems K xs = serializeElems K ys) ∧
      JsArr.length xs = JsArr.length ys)
    ⟨fun _ => rfl, rfl⟩
    (fun _ => ⟨fun _ => rfl, rfl⟩)
    (fun _ => ⟨fun _ => rfl, rfl⟩)
    (fun _ => ⟨fun _ => rfl, rfl⟩)
    ?_ ?_
    ⟨fun _ => rfl, rfl⟩
    ?_
    v w h
  · -- arrays
    intro xs ys a ih
    have hser : ∀ K, jsonStringifyReplacer K (.arr xs) =
        jsonStringifyReplacer K (.arr ys) := by
      intro K
      show "[" ++ joinComma (serializeElems K xs) ++ "]" = _
      rw [ih.1 K]
      rfl
    refine ⟨hser, ?_⟩
    show sha256 (.arr xs) = sha256 (.arr ys)
    calc sha256 (.arr xs)
        = some (sha256HexOfString (jsonStringifyReplacer
            (sortStrings (indexKeys xs.length)) (.arr xs))) := rfl
      _ = some (sha256HexOfString (jsonStringifyReplacer
            (sortStrings (indexKeys ys.length)) (.arr ys))) := by rw [ih.2, hser]
      _ = sha256 (.arr ys) := rfl
  · -- objects
    intro kvs1 kvs2 hnd1 hnd2 hpm hlk ih
    have hser : ∀ K, jsonStringifyReplacer K (.obj kvs1) =
        jsonStringifyReplacer K (.obj kvs2) := by
      intro K
      have hfields : assembleFields K (serializeFields K kvs1) =
          assembleFields K (serializeFields K kvs2) := by
        unfold assembleFields
        apply congrArg (fun f => List.filterMap f K)
        funext k
        rw [lookupField_serializeFields K k kvs1, lookupField_serializeFields K k kvs2]
        cases h1 : kvs1.lookup k with
        | none =>
          have hk1 : k ∉ kvs1.keys := by
            rw [← lookup_isSome_iff_mem_keys k kvs1, h1]
            simp
          have hk2 : k ∉ kvs2.keys := fun hm => hk1 (hpm.mem_iff.mpr hm)
          cases h2 : kvs2.lookup k with
          | none => rfl
          | some v =>
            exact absurd ((lookup_isSome_iff_mem_keys k kvs2).mp (by simp [h2])) hk2
        | some v1 =>
          have hk1 : k ∈ kvs1.keys :=
            (lookup_isSome_iff_mem_keys k kvs1).mp (by simp [h1])
          have hk2 : k ∈ kvs2.keys := hpm.mem_iff.mp hk1
          cases h2 : kvs2.lookup k with
          | none =>
            exact absurd ((lookup_isSome_iff_mem_keys k kvs2).mpr hk2) (by simp [h2])
          | some v2 =>
            have hv := (ih k v1 v2 h1 h2).1 K
            simp [hv]
      show "\x7b" ++ joinComma (assembleFields K (serializeFields K kvs1)) ++ "\x7d" = _
      rw [hfields]
      rfl
    refine ⟨hser, ?_⟩
    show sha256 (.obj kvs1) = sha256 (.obj kvs2)
    have hsort : sortStrings kvs1.keys = sortStrings kvs2.keys := sortStrings_congr hpm
    calc sha256 (.obj kvs1)
        = some (sha256HexOfString (jsonStringifyReplacer
            (sortStrings kvs1.keys) (.obj kvs1))) := rfl
      _ = some (sha256HexOfString (jsonStringifyReplacer
            (sortStrings kvs2.keys) (.obj kvs2))) := by rw [hsort, hser]
      _ = sha256 (.obj kvs2) := rfl
  · -- array cons
    intro x y xs ys a a1 ih1 ih2
    refine ⟨?_, ?_⟩
    · intro K
      show jsonStringifyReplacer K x :: serializeElems K xs = _
      rw [ih1.1 K, ih2.1 K]
      rfl
    · show 1 + JsArr.length xs = 1 + JsArr.length ys
      rw [ih2.2]

/-! ## Claim C2: canonicalization independence of the content hash -/

/-- C2: for every pair of structurally equal values that differ only in
the order of their object keys, at any nesting depth, sha256 produces
the identical digest, so fact identity does not depend on key order in
the payload. -/
theorem sha256_key_order_independent :
    ∀ (v w : JsValue), KeyPerm v w → sha256 v = sha256 w :=
  fun _ _ h => (keyPerm_main h).2

/-- Witness for C2: a two-field object and its key-reversed form hash
identically. -/
theorem sha256_key_order_independent_witness :
    KeyPerm (.obj objW1) (.obj objW2) ∧
    sha256 (.obj objW1) = sha256 (.obj objW2) := by
  have hkp : KeyPerm (.obj objW1) (.obj objW2) := by
    apply KeyPerm.obj
    · decide
    · decide
    · decide
    · intro k v1 v2 h1 h2
      by_cases hka : "a" = k
      · subst hka
        rw [show JsObj.lookup objW1 "a" = some (JsValue.num 1) from rfl] at h1
        rw [show JsObj.lookup objW2 "a" = some (JsValue.num 1) from rfl] at h2
        cases h1
        cases h2
        exact .num 1
      · by_cases hkb : "b" = k
        · subst hkb
          rw [show JsObj.lookup objW1 "b" = some (JsValue.str "x") from rfl] at h1
          rw [show JsObj.lookup objW2 "b" = some (JsValue.str "x") from rfl] at h2
          cases h1
          cases h2
          exact .str "x"
        · simp [objW1, JsObj.lookup, hka, hkb] at h1
  exact ⟨hkp, sha256_key_order_independent _ _ hkp⟩

end LexBrain
